import Mathlib

/-!
Verification of the ant-colony image segmentation core.

Shallow embedding of the Rust sources:
  * `src/image_arithmetic/color_distances.rs`
  * `src/image_arithmetic/types.rs`
  * `src/image_arithmetic/utilities.rs`
  * `src/image_arithmetic/segments.rs`
  * `src/segment_generation.rs`
  * `src/image_ants.rs`

Machine integers are modelled as `Nat`/`Int` with explicit wrap-around
(`% 256`, `% 2^64`) where overflow matters.  `f32`/`f64` grids are
modelled over `ℚ` (exact arithmetic); the real-valued random-walk
weights, which involve `sqrt`, are modelled over `ℝ`.
-/

set_option maxHeartbeats 1600000

namespace AntSeg

/-! ## Colors -/

/-- An RGB pixel with 8-bit components, modelled as a triple of naturals. -/
abbrev Color := ℕ × ℕ × ℕ

/-- The exact-white background color `Rgb([255, 255, 255])`. -/
def white : Color := (255, 255, 255)

/-- The color a freshly allocated `RgbImage::new` canvas is filled with
(all subpixels zero). -/
def black : Color := (0, 0, 0)

/-! ## `color_distances.rs` -/

/-- u8 subtraction `b - a` as compiled in release mode: wrap-around
modulo `2^8`.  Both arguments are assumed `< 256`. -/
def wsub (b a : ℕ) : ℕ := (b + 256 - a) % 256

/-- `fn multiply(x: u8, y: u8) -> f64 { ((x as u16) * (y as u16)) as f64 }`.
For `x, y < 256` the u16 product does not overflow, and the `f64`
conversion is exact. -/
def multiply (x y : ℕ) : ℕ := x * y

/-- `fn square(x: u8) -> f64 { multiply(x, x) }` -/
def squareU8 (x : ℕ) : ℕ := multiply x x

/-- `euclidean_squared` from `color_distances.rs`:
`square(b.0[0] - a.0[0]) + square(b.0[1] - a.0[1]) + square(b.0[2] - a.0[2])`
with u8 (wrapping) subtraction. -/
def euclidean_squared (a b : Color) : ℕ :=
  squareU8 (wsub b.1 a.1) + squareU8 (wsub b.2.1 a.2.1) + squareU8 (wsub b.2.2 a.2.2)

/-- `fn absdiff(a: u8, b: u8) -> f64` via exact i16 arithmetic. -/
def absdiff (a b : ℕ) : ℕ := ((b : ℤ) - (a : ℤ)).natAbs

/-- `manhattan` from `color_distances.rs`. -/
def manhattanColor (a b : Color) : ℕ :=
  absdiff a.1 b.1 + absdiff a.2.1 b.2.1 + absdiff a.2.2 b.2.2

/-- The true (non-wrapping) squared Euclidean RGB distance, written from
the spec's words: the sum of the squares of the signed component
differences.  Used only to compare against `euclidean_squared`. -/
def trueEuclideanSquared (a b : Color) : ℕ :=
  (((b.1 : ℤ) - a.1) ^ 2 + ((b.2.1 : ℤ) - a.2.1) ^ 2 + ((b.2.2 : ℤ) - a.2.2) ^ 2).toNat

/-- `euclidean` from `color_distances.rs`: `euclidean_squared(a, b).sqrt()`. -/
noncomputable def euclideanColor (a b : Color) : ℝ :=
  Real.sqrt (euclidean_squared a b)

/-! ## `utilities.rs`: color generation -/

/-- `generate_color` from `utilities.rs`.  `num: usize` with release
wrap-around modulo `2^64`; each component is reduced `% 255`. -/
def generate_color (num : ℕ) : Color :=
  let i := (num + 1) % 2 ^ 64
  (i * 98 % 2 ^ 64 % 255, i * 57 % 2 ^ 64 % 255, i * 157 % 2 ^ 64 % 255)

/-- `generate_unique_color` from `utilities.rs`. -/
def generate_unique_color (num : ℕ) : Color := generate_color num

/-! ## `types.rs`: points -/

/-- `Point` from `types.rs`: a pair of `i64` coordinates (no overflow is
reachable in this code, so plain `ℤ` is faithful). -/
@[ext]
structure Point where
  x : ℤ
  y : ℤ
deriving DecidableEq

instance : Add Point := ⟨fun a b => ⟨a.x + b.x, a.y + b.y⟩⟩

instance : Inhabited Point := ⟨⟨0, 0⟩⟩

/-- `Point::neighbourhood_directions`, in source order. -/
def neighbourhood_directions : List Point :=
  [⟨1, 0⟩, ⟨-1, 0⟩, ⟨0, -1⟩, ⟨0, 1⟩, ⟨1, -1⟩, ⟨1, 1⟩, ⟨-1, 1⟩, ⟨-1, -1⟩]

/-- `Point::iterate_neighbourhood`. -/
def Point.iterate_neighbourhood (p : Point) : List Point :=
  neighbourhood_directions.map (fun dir => p + dir)

/-- `Point::is_within_rectangle` (inclusive on all sides). -/
def Point.is_within_rectangle (p a b : Point) : Bool :=
  let min_x := min a.x b.x
  let max_x := max a.x b.x
  let min_y := min a.y b.y
  let max_y := max a.y b.y
  min_x ≤ p.x && p.x ≤ max_x && min_y ≤ p.y && p.y ≤ max_y

/-- `Point::euclidean_squared_distance` (exact `f64` arithmetic on i64
differences, modelled over `ℝ`). -/
noncomputable def Point.euclidean_squared_distance (p q : Point) : ℝ :=
  ((q.x - p.x : ℤ) : ℝ) ^ 2 + ((q.y - p.y : ℤ) : ℝ) ^ 2

/-- `Point::euclidean_distance`. -/
noncomputable def Point.euclidean_distance (p q : Point) : ℝ :=
  Real.sqrt (p.euclidean_squared_distance q)

/-- `Point::manhattan_distance`. -/
def Point.manhattan_distance (p q : Point) : ℤ :=
  |q.x - p.x| + |q.y - p.y|

/-! ## Pheromone channels (`ArithmeticImage<f32> for PheromoneImage`) -/

/-- A `PheromoneImage`: a width×height grid of `f32` intensities,
modelled as a total `ℚ`-valued function together with its dimensions
(the function is only meaningful on `[0, width) × [0, height)`). -/
structure PheromoneImage where
  width : ℕ
  height : ℕ
  pix : ℕ → ℕ → ℚ

instance : Inhabited PheromoneImage := ⟨⟨0, 0, fun _ _ => 0⟩⟩

/-- The raw buffer in row-major order (`as_raw`), used by the fold
reductions. -/
def PheromoneImage.valuesList (img : PheromoneImage) : List ℚ :=
  (List.range img.height).flatMap fun y => (List.range img.width).map fun x => img.pix x y

/-- `ArithmeticImage::max`: fold of `f32::max` over the raw buffer with
initial accumulator `0.0`. -/
def PheromoneImage.maxVal (img : PheromoneImage) : ℚ :=
  img.valuesList.foldl max 0

/-- `ArithmeticImage::min`: fold with initial accumulator `+∞`; modelled
as `Option`-valued (`none` encodes the infinity that survives an empty
grid). -/
def PheromoneImage.minVal (img : PheromoneImage) : Option ℚ :=
  img.valuesList.foldl (fun a b => match a with
    | none => some b
    | some v => some (min v b)) none

/-- `ArithmeticImage::normalize`: divide by the maximum unless it is 0
or 1. -/
def PheromoneImage.normalize (img : PheromoneImage) : PheromoneImage :=
  let m := img.maxVal
  if m ≠ 0 ∧ m ≠ 1 then { img with pix := fun x y => img.pix x y / m } else img

/-- `ArithmeticImage::binarize`: normalize, then map to 1.0 where
strictly above the threshold, else 0.0. -/
def PheromoneImage.binarize (img : PheromoneImage) (threshold : ℚ) : PheromoneImage :=
  let n := img.normalize
  { n with pix := fun x y => if threshold < n.pix x y then 1 else 0 }

/-- `ArithmeticImage::clamp`: `threshold.min(v)`. -/
def PheromoneImage.clampAt (img : PheromoneImage) (threshold : ℚ) : PheromoneImage :=
  { img with pix := fun x y => min threshold (img.pix x y) }

/-- `ArithmeticImage::add` (elementwise, dimensions taken from `self`). -/
def PheromoneImage.add (img other : PheromoneImage) : PheromoneImage :=
  { img with pix := fun x y => img.pix x y + other.pix x y }

/-- `ArithmeticImage::add_scalar`: add, then floor at 0. -/
def PheromoneImage.add_scalar (img : PheromoneImage) (num : ℚ) : PheromoneImage :=
  { img with pix := fun x y =>
      let v := img.pix x y + num
      if v < 0 then 0 else v }

/-- `ArithmeticImage::mul` (elementwise). -/
def PheromoneImage.mul (img other : PheromoneImage) : PheromoneImage :=
  { img with pix := fun x y => img.pix x y * other.pix x y }

/-- `ArithmeticImage::mul_scalar`. -/
def PheromoneImage.mul_scalar (img : PheromoneImage) (num : ℚ) : PheromoneImage :=
  { img with pix := fun x y => img.pix x y * num }

/-! ## RGB images -/

/-- An `RgbImage`: a width×height grid of RGB pixels, modelled as a
total function on `Point`s (meaningful on `[0,width) × [0,height)`). -/
structure RgbImg where
  width : ℕ
  height : ℕ
  pix : Point → Color

instance : Inhabited RgbImg := ⟨⟨0, 0, fun _ => black⟩⟩

/-- In-bounds predicate for an image's pixel rectangle. -/
def RgbImg.inB (img : RgbImg) (p : Point) : Prop :=
  0 ≤ p.x ∧ p.x < img.width ∧ 0 ≤ p.y ∧ p.y < img.height

instance (img : RgbImg) (p : Point) : Decidable (img.inB p) := by
  unfold RgbImg.inB; infer_instance

/-- `put_pixel`: functional update at one point. -/
def RgbImg.put (img : RgbImg) (p : Point) (c : Color) : RgbImg :=
  { img with pix := fun q => if q = p then c else img.pix q }

/-- The `Finset` of in-bounds points. -/
def RgbImg.domain (img : RgbImg) : Finset Point :=
  (Finset.range img.width ×ˢ Finset.range img.height).image
    fun ab => (⟨ab.1, ab.2⟩ : Point)

/-- The in-bounds points carrying a given color. -/
def RgbImg.colorSet (img : RgbImg) (c : Color) : Finset Point :=
  img.domain.filter fun p => img.pix p = c

/-! ## `utilities.rs`: `fill_connected` -/

/-- The neighbour offsets produced by the `dx`/`dy` double loop of
`fill_connected` in iteration order ((-1,0), (0,-1), (0,1), (1,0)); the
diagonal and zero offsets are skipped by `dx == dy || dx == -dy`. -/
def fillOffsets : List (ℤ × ℤ) := [(-1, 0), (0, -1), (0, 1), (1, 0)]

/-- The candidate neighbour coordinates of a popped point: `x + dx` and
`y + dy`, clamped below at 0 (`0.max(..) as u32`). -/
def fillCandidates (p : Point) : List Point :=
  fillOffsets.map fun d => ⟨max 0 (p.x + d.1), max 0 (p.y + d.2)⟩

/-- The upper-bounds check done by `get_pixel_checked` (the coordinates
are already nonnegative after the clamp). -/
def inUpper (img : RgbImg) (p : Point) : Prop := p.x < img.width ∧ p.y < img.height

instance (img : RgbImg) (p : Point) : Decidable (inUpper img p) := by
  unfold inUpper; infer_instance

/-- One `while !queued.is_empty()` loop of `fill_connected`, with
explicit fuel (the source loop's termination is proved separately).
State: current image, `filled` set, `queued` stack (head = top).
Popping `point`: insert into `filled`, paint it with `color`, then push
every orthogonal neighbour that exists, still has `original_color`, and
is not yet filled.  Pushes go on top of the stack in reverse iteration
order (Rust pushes to the vector's end and pops from the end). -/
def fillGo (color orig : Color) :
    ℕ → RgbImg → Finset Point → List Point → RgbImg × Finset Point × List Point
  | 0, img, filled, q => (img, filled, q)
  | _ + 1, img, filled, [] => (img, filled, [])
  | fuel + 1, img, filled, p :: rest =>
      let filled' := insert p filled
      let img' := img.put p color
      let pushes := (fillCandidates p).filter
        fun q => decide (inUpper img' q ∧ img'.pix q = orig ∧ q ∉ filled')
      fillGo color orig fuel img' filled' (pushes.reverse ++ rest)

/-- `fill_connected` from `utilities.rs`: flood fill starting at `s`,
filling with `color` every 4-connected pixel that has the start pixel's
original color.  Returns the mutated image and the filled point set.
The fuel `4*width*height + 2` is sufficient whenever
`color ≠ original_color` (proved below); the source loop diverges when
`color = original_color`, which no caller exercises. -/
def fill_connected (img : RgbImg) (color : Color) (s : Point) : RgbImg × Finset Point :=
  let orig := img.pix s
  let r := fillGo color orig (4 * img.width * img.height + 2) img ∅ [s]
  (r.1, r.2.1)

/-! ## `segments.rs`: `extract_segments` -/

/-- The pixel coordinates in `enumerate_pixels` order: row-major, x
fastest. -/
def scanPoints (w h : ℕ) : List Point :=
  (List.range h).flatMap fun (y : ℕ) =>
    (List.range w).map fun (x : ℕ) => Point.mk (x : ℤ) (y : ℤ)

/-- `enumerate_pixels().find(...)` on the blank (exact-white) predicate:
scan in row-major order and return the first white pixel. -/
def findBlank (img : RgbImg) : Option Point :=
  (scanPoints img.width img.height).find? fun p => decide (img.pix p = white)

/-- The `loop` of `extract_segments`, with explicit fuel (each
iteration strictly decreases the number of white pixels, proved
below). -/
def extractGo : ℕ → RgbImg → List (Finset Point) → RgbImg × List (Finset Point)
  | 0, img, segs => (img, segs)
  | fuel + 1, img, segs =>
      match findBlank img with
      | none => (img, segs)
      | some s =>
          let color := generate_unique_color segs.length
          let r := fill_connected img color s
          extractGo fuel r.1 (segs ++ [r.2])

/-- `extract_segments` from `segments.rs`. -/
def extract_segments (img : RgbImg) : RgbImg × List (Finset Point) :=
  extractGo (img.width * img.height + 1) img []

/-! ## 4-connectivity on the white pixels -/

/-- Orthogonal (4-connected) adjacency of points. -/
def adj4 (p q : Point) : Prop :=
  (p.x - q.x).natAbs + (p.y - q.y).natAbs = 1

/-- Reachability from `s` through pixels satisfying `P` (every visited
pixel except possibly `s` satisfies `P`). -/
def reach (P : Point → Prop) (s q : Point) : Prop :=
  Relation.ReflTransGen (fun a b => adj4 a b ∧ P b) s q

/-- Membership in the white set as a plain predicate. -/
def isWhiteIn (img : RgbImg) (p : Point) : Prop :=
  img.inB p ∧ img.pix p = white

/-- The maximal 4-connected white region containing `s` (`s` itself is
required to be white for this to be the intended component), as a set. -/
def component (img : RgbImg) (s : Point) : Set Point :=
  {q | isWhiteIn img q ∧ reach (isWhiteIn img) s q}

/-! ## `segment_generation.rs`: the contour pipeline -/

/-- `LAPLACE_KERNEL` from `image_arithmetic/mod.rs`. -/
def LAPLACE_KERNEL : List ℚ := [1, 1, 1, 1, -8, 1, 1, 1, 1]

/-- The 3×3 kernel tap offsets in row-major order, matching the kernel
layout. -/
def kernelTaps : List (ℤ × ℤ) :=
  [(-1, -1), (0, -1), (1, -1), (-1, 0), (0, 0), (1, 0), (-1, 1), (0, 1), (1, 1)]

/-- `imageops::invert` on a `Luma<f32>` buffer: each value `v` becomes
`DEFAULT_MAX_VALUE - v = 1.0 - v`. -/
def PheromoneImage.invert (img : PheromoneImage) : PheromoneImage :=
  { img with pix := fun x y => 1 - img.pix x y }

/-- `imageops::filter3x3`: 3×3 correlation over the grid.  Border taps
are modelled with clamped (edge-replicated) coordinates; the claims
proved here do not depend on the border convention of the external
`image` crate. -/
def filter3x3 (img : PheromoneImage) (kernel : List ℚ) : PheromoneImage :=
  { img with pix := fun x y =>
      if x < img.width ∧ y < img.height then
        (kernel.zip kernelTaps).foldl (fun acc kt =>
          let xi := min ((img.width : ℤ) - 1) (max 0 ((x : ℤ) + kt.2.1))
          let yi := min ((img.height : ℤ) - 1) (max 0 ((y : ℤ) + kt.2.2))
          acc + kt.1 * img.pix xi.toNat yi.toNat) 0
      else 0 }

/-- `extract_edges` from `segment_generation.rs`: binarize at the
threshold, invert, convolve with the Laplacian kernel. -/
def extract_edges (pheromone : PheromoneImage) (threshold : ℚ) : PheromoneImage :=
  filter3x3 (pheromone.binarize threshold).invert LAPLACE_KERNEL

/-- The `Luma<f32>` to 8-bit conversion applied by `to_rgb8`: clamp to
`[0,1]`, scale to `[0,255]`, round; the gray value is replicated over
the three RGB channels.  The claims proved here do not depend on the
exact rounding. -/
def lumaToU8 (v : ℚ) : ℕ := (⌊max 0 (min 1 v) * 255 + 1 / 2⌋).toNat

/-- Gray to RGB replication. -/
def lumaToRgb8 (v : ℚ) : Color := (lumaToU8 v, lumaToU8 v, lumaToU8 v)

/-- `contour_segmententation` from `segment_generation.rs`: sum all
channels, extract edges, invert, then crop away the outermost 1-pixel
ring and paste the interior at offset (1,1) onto a fresh (zero-filled,
i.e. black) `RgbImage` canvas.  The crop/paste is modelled for
`width, height ≥ 2` (the degenerate smaller cases underflow `u32`
subtraction in the source). -/
def contour_segmententation (pheromones : List PheromoneImage) (threshold : ℚ) : RgbImg :=
  let first := pheromones.headD default
  let summed := pheromones.tail.foldl PheromoneImage.add first
  let edges := (extract_edges summed threshold).invert
  let w := edges.width
  let h := edges.height
  { width := w, height := h,
    pix := fun p =>
      if 1 ≤ p.x ∧ p.x ≤ (w : ℤ) - 2 ∧ 1 ≤ p.y ∧ p.y ≤ (h : ℤ) - 2 then
        lumaToRgb8 (edges.pix p.x.toNat p.y.toNat)
      else black }

/-- `region_segmententation` from `segment_generation.rs`. -/
def region_segmententation (pheromones : List PheromoneImage) (threshold : ℚ) :
    RgbImg × List (Finset Point) :=
  extract_segments (contour_segmententation pheromones threshold)

/-! ## Flood-fill correctness

The source `while` loop is justified here: the stack (LIFO) discipline
guarantees that a point popped for the second time (already filled)
pushes nothing, which both bounds the fuel and preserves the frontier
invariant. -/

/-- Generalization of `isWhiteIn` to an arbitrary original color. -/
def origPred (img : RgbImg) (orig : Color) (q : Point) : Prop :=
  img.inB q ∧ img.pix q = orig

/-- Invariant of the `fill_connected` loop state, relative to the
initial image `img0`, the original color, the fill color, and the start
point.  `lifo` is the stack discipline: a queued copy of an
already-filled point has all of its still-pushable neighbours strictly
above it on the stack; in particular the copy at the top of the stack
pushes nothing. -/
structure FillInv (img0 : RgbImg) (orig color : Color) (start : Point)
    (img : RgbImg) (F : Finset Point) (Q : List Point) : Prop where
  dimsW : img.width = img0.width
  dimsH : img.height = img0.height
  paint : ∀ p, img.pix p = if p ∈ F then color else img0.pix p
  qInB : ∀ p ∈ Q, img0.inB p
  qReach : ∀ p ∈ Q, reach (origPred img0 orig) start p
  qOrig : ∀ p ∈ Q, p ∉ F → img0.pix p = orig
  fInB : ∀ p ∈ F, img0.inB p
  fOrig : ∀ p ∈ F, img0.pix p = orig
  fReach : ∀ p ∈ F, reach (origPred img0 orig) start p
  front : ∀ p ∈ F, ∀ q, adj4 p q → img0.inB q → img0.pix q = orig → q ∉ F → q ∈ Q
  startIn : start ∈ F ∨ start ∈ Q
  lifo : ∀ (i : ℕ) (p : Point), Q[i]? = some p → p ∈ F →
    ∀ q ∈ fillCandidates p, inUpper img q → img.pix q = orig → q ∉ F →
      ∃ j : ℕ, j < i ∧ Q[j]? = some q

/-- The pushes performed when popping `p`. -/
def pushes (img : RgbImg) (F : Finset Point) (p : Point) (color : Color) (orig : Color) :
    List Point :=
  (fillCandidates p).filter fun q =>
    decide (inUpper (img.put p color) q ∧ (img.put p color).pix q = orig ∧ q ∉ insert p F)

/-- Invariant of the `extract_segments` loop: the recorded segments are
whole 4-connected white components of the original contour image,
pairwise disjoint, and the working image is white exactly at the
original white pixels not yet assigned to a segment. -/
structure ExtInv (img0 img : RgbImg) (segs : List (Finset Point)) : Prop where
  dimsW : img.width = img0.width
  dimsH : img.height = img0.height
  whiteEq : ∀ q, img.pix q = white ↔ (img0.pix q = white ∧ ∀ s ∈ segs, q ∉ s)
  comps : ∀ s ∈ segs, ∃ p, origPred img0 white p ∧
    ∀ q, q ∈ s ↔ origPred img0 white q ∧ reach (origPred img0 white) p q
  disj : List.Pairwise (fun s t => ∀ q, q ∈ s → q ∉ t) segs

/-! ## `image_ants.rs`: rules, ants, colony step

The pseudo-random generator is an external collaborator (the `rand`
crate); per the spec the core "treats the RNG as an injected,
already-initialized stream", so it is modelled as an explicit
deterministic stream of naturals. -/

/-- Modelled from the spec: an injected, already-initialized
pseudo-random stream (the external `rand` crate's generator state). -/
structure Rng where
  stream : ℕ → ℕ
  idx : ℕ

/-- Draw one raw value and advance the stream. -/
def Rng.next (r : Rng) : ℕ × Rng := (r.stream r.idx, ⟨r.stream, r.idx + 1⟩)

/-- Modelled from the spec: `SeedableRng::from_rng` — deterministically
derive one independent child stream by consuming from the parent
stream, advancing the parent. -/
def Rng.fromRng (r : Rng) : Rng × Rng :=
  (⟨fun n => r.stream ((r.idx + 1) * 2 ^ 32 + n), 0⟩, ⟨r.stream, r.idx + 1⟩)

/-- Modelled from the spec: `rand`'s uniform choice of an index below
`n` (`(0..n).choose(rng)`). -/
def Rng.natBelow (r : Rng) (n : ℕ) : ℕ × Rng := (r.next.1 % n, r.next.2)

/-- Modelled from the spec: a uniform rational in `[0, 1)` used by
weighted sampling. -/
def Rng.unit (r : Rng) : ℚ × Rng := (((r.next.1 % 2 ^ 32 : ℕ) : ℚ) / (2 ^ 32 : ℚ), r.next.2)

/-- `UpdateFunction<R>`: mutates the rng and one pheromone channel. -/
def UpdateFn : Type :=
  Rng → RgbImg → PheromoneImage → Finset Point → Rng × PheromoneImage

/-- `GlobalUpdateFunction<R>`: mutates the rng and all channels. -/
def GlobalUpdateFn : Type :=
  Rng → RgbImg → List PheromoneImage → Finset Point → Rng × List PheromoneImage

/-- `AntColonyRules` from `image_ants.rs`. -/
structure AntColonyRules where
  max_ant_steps : ℕ
  ants_per_global_update : ℕ
  ants_return : Bool
  parallelity : ℕ
  initialization_funcs : List (Option UpdateFn)
  local_update_funcs : List (Option UpdateFn)
  global_update_func : Option GlobalUpdateFn

/-- The three `InvalidConfiguration` error messages of
`AntColonyRules::new`. -/
inductive RulesError
  | noPheromones
  | extraPheromoneFunctions
  | unequalAmount
deriving DecidableEq

/-- `AntColonyRules::new`.  `available_parallelism` stands for the
environment-supplied `thread::available_parallelism()` fallback. -/
def AntColonyRules.new (max_ant_steps ants_per_global_update : ℕ) (ants_return : Bool)
    (parallelity : Option ℕ) (available_parallelism : ℕ)
    (pheromone_functions : List (List (Option UpdateFn)))
    (global_update_func : Option GlobalUpdateFn) : Except RulesError AntColonyRules :=
  let pheromone_channels :=
    if pheromone_functions.length > 0 then (pheromone_functions.headD []).length else 0
  if pheromone_channels ≤ 0 then .error .noPheromones
  else if pheromone_functions.length > 2 then .error .extraPheromoneFunctions
  else if pheromone_functions.any fun x => x.length != pheromone_channels then
    .error .unequalAmount
  else
    let padded := List.replicate (2 - pheromone_functions.length)
        (List.replicate pheromone_channels (none : Option UpdateFn)) ++ pheromone_functions
    let par0 := parallelity.getD available_parallelism
    let par := if par0 > ants_per_global_update then 1 else par0
    .ok { max_ant_steps, ants_per_global_update, ants_return, parallelity := par,
          initialization_funcs := padded.headD [],
          local_update_funcs := padded.getD 1 [],
          global_update_func }

/-- `Result::is_ok`. -/
def exceptOk {ε α : Type} : Except ε α → Bool
  | .ok _ => true
  | .error _ => false

/-- The invalid-configuration condition exactly as the claim words it:
zero declared channels, more channels than the supported maximum of 3,
or policy arrays of unequal lengths.  (Written from the claim for
comparison with the implementation.) -/
def claimedInvalidConfig (pheromone_functions : List (List (Option UpdateFn))) : Prop :=
  (pheromone_functions.headD []).length = 0 ∨
    3 < (pheromone_functions.headD []).length ∨
    ∃ row ∈ pheromone_functions, row.length ≠ (pheromone_functions.headD []).length

/-! ## Colony-step merging (`run_colony_step`) -/

/-- The per-worker merge of pheromone deltas into the authoritative
channel set: `part_pheromones.zip(pheromones.iter_mut())` adds the
worker's channel onto each authoritative channel (extra authoritative
channels are left untouched by the zip). -/
def zipAddChannels (totals parts : List PheromoneImage) : List PheromoneImage :=
  List.zipWith PheromoneImage.add totals parts ++ totals.drop parts.length

/-- Merging one worker's results: elementwise addition of its channels
into the totals, and union of its ants' visited sets into the batch
total. -/
def mergeWorker (acc : List PheromoneImage × Finset Point)
    (part : List PheromoneImage × List (Finset Point)) :
    List PheromoneImage × Finset Point :=
  (zipAddChannels acc.1 part.1, part.2.foldl (fun a v => a ∪ v) acc.2)

/-- A concrete 1×1 constant channel, for witnesses. -/
def sampleChan (v : ℚ) : PheromoneImage := ⟨1, 1, fun _ _ => v⟩

/-- A concrete per-worker partial result, for witnesses. -/
def sampleWorker (v : ℚ) : List PheromoneImage × List (Finset Point) :=
  ([sampleChan v], [{⟨0, 0⟩}])

/-! ## The weighted random walk (`Ant::run`)

Weights involve `f32`/`f64` square roots and are modelled over `ℝ`;
the walk itself is therefore noncomputable but fully specified.
`Option.none` models the `unwrap` panic on `choose_weighted`
failure. -/

/-- `Point::spawn`: choose x below `width` and y below `height` from
the rng. -/
def Point.spawn (rng : Rng) (width height : ℕ) : Point × Rng :=
  (⟨((rng.natBelow width).1 : ℤ), (((rng.natBelow width).2.natBelow height).1 : ℤ)⟩,
    ((rng.natBelow width).2.natBelow height).2)

/-- `Ant` from `image_ants.rs`. -/
structure Ant where
  position : Point
  target : Point
  visited : Finset Point

/-- `Ant::spawn`. -/
def Ant.spawn (rng : Rng) (width height : ℕ) : Ant × Rng :=
  (⟨(Point.spawn rng width height).1,
      (Point.spawn (Point.spawn rng width height).2 width height).1, ∅⟩,
    (Point.spawn (Point.spawn rng width height).2 width height).2)

/-- A pheromone read at a point with nonnegative coordinates
(`Point::get_pixel` on the channel). -/
def PheromoneImage.atP (ph : PheromoneImage) (p : Point) : ℚ :=
  ph.pix p.x.toNat p.y.toNat

/-- The `get_weight` closure of `Ant::run`: zero outside the image
rectangle; otherwise a base of 0.1 plus every positive pheromone
strength, scaled towards the target, damped by color distance, and
multiplied by 0.01 on revisits.  `dist` is the (precomputed) distance
from the current position to the target. -/
noncomputable def getWeight (img : RgbImg) (pheromones : List PheromoneImage)
    (target position : Point) (visited : Finset Point) (newpos : Point) : ℝ :=
  if newpos.is_within_rectangle ⟨0, 0⟩ ⟨(img.width : ℤ) - 1, (img.height : ℤ) - 1⟩ then
    let base := pheromones.foldl (fun acc ph =>
      let strength := ph.atP newpos
      if 0 < strength then acc + (strength : ℝ) else acc) (0.1 : ℝ)
    let dist := target.euclidean_distance position
    let w1 := base * ((dist - target.euclidean_distance newpos) + 3)
    let cdist := manhattanColor (img.pix position) (img.pix newpos)
    let w2 := w1 / (128 + (cdist : ℝ))
    if newpos ∈ visited then w2 * 0.01 else w2
  else 0

/-- Modelled from the spec: `rand`'s `choose_weighted` — pick the item
whose cumulative-weight interval contains a uniform draw in
`[0, total)`. -/
noncomputable def pickWeighted (weight : Point → ℝ) : List Point → ℝ → Point
  | [], _ => ⟨0, 0⟩
  | p :: rest, u =>
      have : Decidable (u < weight p) := Classical.dec _
      if u < weight p then p else pickWeighted weight rest (u - weight p)

/-- Modelled from the spec: `choose_weighted` fails (`AllWeightsZero`)
when the total weight is not positive; otherwise it draws uniformly
and picks by cumulative weight. -/
noncomputable def chooseWeighted (items : List Point) (weight : Point → ℝ) (rng : Rng) :
    Option (Point × Rng) :=
  have : Decidable ((items.map weight).sum ≤ 0) := Classical.dec _
  if (items.map weight).sum ≤ 0 then none
  else
    some (pickWeighted weight items (((rng.unit.1 : ℚ) : ℝ) * (items.map weight).sum),
      rng.unit.2)

/-- The loop of `Ant::run`, one iteration per fuel unit
(`for _ in 0..max_ant_steps`), followed by the trailing
`visited.insert(position)`.  `start` is the local `Option` holding the
original position until the return phase consumes it. -/
noncomputable def antRunGo (img : RgbImg) (rules : AntColonyRules)
    (pheromones : List PheromoneImage) :
    ℕ → Option Point → Ant → Rng → Option (Ant × Rng)
  | 0, _, ant, rng => some ({ ant with visited := insert ant.position ant.visited }, rng)
  | fuel + 1, start, ant, rng =>
      if ant.position = ant.target ∧ ¬(rules.ants_return = true ∧ start.isSome = true) then
        some ({ ant with visited := insert ant.position ant.visited }, rng)
      else
        let target' := if ant.position = ant.target then start.getD ant.target else ant.target
        let start' := if ant.position = ant.target then none else start
        let visited' := insert ant.position ant.visited
        match chooseWeighted ant.position.iterate_neighbourhood
            (getWeight img pheromones target' ant.position visited') rng with
        | none => none
        | some (next, rng') =>
            antRunGo img rules pheromones fuel start' ⟨next, target', visited'⟩ rng'

/-- `Ant::run`. -/
noncomputable def Ant.run (img : RgbImg) (rules : AntColonyRules)
    (pheromones : List PheromoneImage) (ant : Ant) (rng : Rng) : Option (Ant × Rng) :=
  antRunGo img rules pheromones rules.max_ant_steps (some ant.position) ant rng

/-- The loop body of `AntColonyRules::apply`: apply each per-channel
function in index order, threading the rng. -/
def applyGo (img : RgbImg) (visited : Finset Point) :
    List PheromoneImage → List (Option UpdateFn) → Rng → Rng × List PheromoneImage
  | [], _, rng => (rng, [])
  | p :: ps, [], rng => (rng, p :: ps)
  | p :: ps, f :: fs, rng =>
      match f with
      | none =>
          let r := applyGo img visited ps fs rng
          (r.1, p :: r.2)
      | some u =>
          let r1 := u rng img p visited
          let r2 := applyGo img visited ps fs r1.1
          (r2.1, r1.2 :: r2.2)

/-- `AntColonyRules::apply`: indexes `funcs[i]` for every channel `i`,
which panics (`none`) when fewer functions than channels are
supplied. -/
def applyFuncs (rng : Rng) (img : RgbImg) (pheromones : List PheromoneImage)
    (visited : Finset Point) (funcs : List (Option UpdateFn)) :
    Option (Rng × List PheromoneImage) :=
  if pheromones.length ≤ funcs.length then
    some (applyGo img visited pheromones funcs rng)
  else none

/-- `AntColonyRules::global_update`. -/
def AntColonyRules.globalUpdate (rules : AntColonyRules) (rng : Rng) (img : RgbImg)
    (pheromones : List PheromoneImage) (visited : Finset Point) :
    Rng × List PheromoneImage :=
  match rules.global_update_func with
  | none => (rng, pheromones)
  | some u => u rng img pheromones visited

/-- `create_and_run_ants`: run `n` ants sequentially against a private
clone of the channels, applying the local update after each ant;
returns the mutated clone and each ant's visited set. -/
noncomputable def create_and_run_ants (img : RgbImg) (rules : AntColonyRules) :
    ℕ → Rng → List PheromoneImage → Option (Rng × List PheromoneImage × List (Finset Point))
  | 0, rng, phers => some (rng, phers, [])
  | n + 1, rng, phers =>
      let r := Ant.spawn rng img.width img.height
      match Ant.run img rules phers r.1 r.2 with
      | none => none
      | some (ant', rng2) =>
          match applyFuncs rng2 img phers ant'.visited rules.local_update_funcs with
          | none => none
          | some (rng3, phers') =>
              match create_and_run_ants img rules n rng3 phers' with
              | none => none
              | some (rngf, phersf, vs) => some (rngf, phersf, ant'.visited :: vs)

/-- The worker loop of `run_colony_step`, linearized in worker-index
order (each worker's rng stream is derived sequentially before any
thread runs; the merge order is immaterial by the commutativity of
`mergeWorker`).  The countdown `r` is the number of workers still to
spawn; the last worker (`r = 1`) absorbs the remaining ants. -/
noncomputable def runWorkers (img : RgbImg) (rules : AntColonyRules)
    (snapshot : List PheromoneImage) :
    ℕ → ℕ → Rng → Option (Rng × List (List PheromoneImage × List (Finset Point)))
  | 0, _, rng => some (rng, [])
  | r + 1, ants_left, rng =>
      let ants := if 0 < r then
          min ants_left (rules.ants_per_global_update / rules.parallelity)
        else ants_left
      let d := rng.fromRng
      match create_and_run_ants img rules ants d.1 snapshot with
      | none => none
      | some (_, phersW, visW) =>
          match runWorkers img rules snapshot r (ants_left - ants) d.2 with
          | none => none
          | some (rngf, parts) => some (rngf, (phersW, visW) :: parts)

/-- `run_colony_step`: shard the batch across `parallelity` workers on
private clones of the channels, merge every worker's channels by
elementwise addition into the authoritative set and its visited sets by
union, then run the global update once. -/
noncomputable def run_colony_step (rng : Rng) (img : RgbImg) (rules : AntColonyRules)
    (pheromones : List PheromoneImage) :
    Option (Rng × List PheromoneImage × Finset Point) :=
  match runWorkers img rules pheromones rules.parallelity rules.ants_per_global_update rng with
  | none => none
  | some (rng', parts) =>
      let merged := parts.foldl mergeWorker (pheromones, ∅)
      let g := rules.globalUpdate rng' img merged.1 merged.2
      some (g.1, g.2, merged.2)

/-- The embedding of a point into the Euclidean plane. -/
noncomputable def toE (p : Point) : EuclideanSpace ℝ (Fin 2) := ![(p.x : ℝ), (p.y : ℝ)]

/-! ## Weighted choice -/

/-- Shorthand for the ant-walk bounds check against the image corners. -/
def inRect (img : RgbImg) (p : Point) : Prop :=
  p.is_within_rectangle ⟨0, 0⟩ ⟨(img.width : ℤ) - 1, (img.height : ℤ) - 1⟩ = true

instance (img : RgbImg) (p : Point) : Decidable (inRect img p) := by
  unfold inRect; infer_instance

/-- The 1×1 image used by the degenerate-walk counterexamples. -/
def img1 : RgbImg := ⟨1, 1, fun _ => black⟩

/-- A concrete rng stream. -/
def rng0 : Rng := ⟨fun _ => 0, 0⟩

/-- A concrete return-enabled rule set with no update policies. -/
def rulesReturn1 : AntColonyRules := ⟨1, 1, true, 1, [], [], none⟩

/-! ## Theorems -/

theorem PheromoneImage.ext' {a b : PheromoneImage} (hw : a.width = b.width)
    (hh : a.height = b.height) (hp : ∀ x y, a.pix x y = b.pix x y) : a = b := by
  cases a; cases b
  simp only [PheromoneImage.mk.injEq]
  exact ⟨hw, hh, funext fun x => funext fun y => hp x y⟩

/-! ## Claim C8 -/

/-- C8: for every pheromone channel and every threshold `t`, after
`binarize(t)` every cell is exactly 0.0 or 1.0, and a cell is 1.0 if and
only if its value after the preceding normalization was strictly greater
than `t`. -/
theorem binarize_zero_or_one_and_iff (img : PheromoneImage) (t : ℚ) (x y : ℕ)
    (hx : x < img.width) (hy : y < img.height) :
    ((img.binarize t).pix x y = 0 ∨ (img.binarize t).pix x y = 1) ∧
      ((img.binarize t).pix x y = 1 ↔ t < img.normalize.pix x y) := by
  unfold PheromoneImage.binarize
  constructor
  · by_cases h : t < img.normalize.pix x y
    · right; simp [h]
    · left; simp [h]
  · by_cases h : t < img.normalize.pix x y
    · simp [h]
    · simp [h]

/-- Witness for C8 at a concrete channel and threshold. -/
theorem binarize_zero_or_one_and_iff_witness :
    (0 < (⟨1, 1, fun _ _ => (1 : ℚ)⟩ : PheromoneImage).width ∧
      0 < (⟨1, 1, fun _ _ => (1 : ℚ)⟩ : PheromoneImage).height) ∧
    ((((⟨1, 1, fun _ _ => (1 : ℚ)⟩ : PheromoneImage).binarize (1/2)).pix 0 0 = 0 ∨
      ((⟨1, 1, fun _ _ => (1 : ℚ)⟩ : PheromoneImage).binarize (1/2)).pix 0 0 = 1) ∧
      (((⟨1, 1, fun _ _ => (1 : ℚ)⟩ : PheromoneImage).binarize (1/2)).pix 0 0 = 1 ↔
        (1/2 : ℚ) < (⟨1, 1, fun _ _ => (1 : ℚ)⟩ : PheromoneImage).normalize.pix 0 0)) :=
  ⟨⟨by decide, by decide⟩,
    binarize_zero_or_one_and_iff ⟨1, 1, fun _ _ => 1⟩ (1/2) 0 0 (by decide) (by decide)⟩

/-! ## Claim C9 -/

/-- C9: `euclidean_squared(a, b)` equals the componentwise sum of the
squares of the wrapping differences `(b_i − a_i) mod 256` (not of the
signed differences); consequently `euclidean` is not symmetric and, at a
pixel pair where a component of `a` exceeds the corresponding component
of `b`, differs from the true Euclidean RGB distance. -/
theorem euclidean_squared_wrapping (a b : Color)
    (ha1 : a.1 < 256) (ha2 : a.2.1 < 256) (ha3 : a.2.2 < 256)
    (hb1 : b.1 < 256) (hb2 : b.2.1 < 256) (hb3 : b.2.2 < 256) :
    euclidean_squared a b =
        (((b.1 : ℤ) - a.1) % 256).toNat ^ 2 + (((b.2.1 : ℤ) - a.2.1) % 256).toNat ^ 2 +
          (((b.2.2 : ℤ) - a.2.2) % 256).toNat ^ 2 ∧
      euclideanColor (1, 0, 0) (0, 0, 0) ≠ euclideanColor (0, 0, 0) (1, 0, 0) ∧
      euclidean_squared (1, 0, 0) (0, 0, 0) ≠ trueEuclideanSquared (1, 0, 0) (0, 0, 0) := by
  refine ⟨?_, ?_, by decide⟩
  · have e1 : wsub b.1 a.1 = (((b.1 : ℤ) - a.1) % 256).toNat := by
      unfold wsub; omega
    have e2 : wsub b.2.1 a.2.1 = (((b.2.1 : ℤ) - a.2.1) % 256).toNat := by
      unfold wsub; omega
    have e3 : wsub b.2.2 a.2.2 = (((b.2.2 : ℤ) - a.2.2) % 256).toNat := by
      unfold wsub; omega
    unfold euclidean_squared squareU8 multiply
    rw [e1, e2, e3]; ring
  · have h1 : euclidean_squared (1, 0, 0) (0, 0, 0) = 65025 := by decide
    have h2 : euclidean_squared (0, 0, 0) (1, 0, 0) = 1 := by decide
    unfold euclideanColor
    rw [h1, h2]
    intro h
    have h65025 : Real.sqrt 65025 = 255 := by
      rw [show (65025 : ℝ) = 255 ^ 2 by norm_num]
      exact Real.sqrt_sq (by norm_num)
    have h1' : Real.sqrt 1 = 1 := Real.sqrt_one
    rw [show ((65025 : ℕ) : ℝ) = (65025 : ℝ) by norm_num,
      show ((1 : ℕ) : ℝ) = (1 : ℝ) by norm_num, h65025, h1'] at h
    norm_num at h

/-- Witness for C9 at concrete pixels. -/
theorem euclidean_squared_wrapping_witness :
    euclidean_squared (3, 7, 250) (1, 9, 0) =
        (((1 : ℤ) - 3) % 256).toNat ^ 2 + (((9 : ℤ) - 7) % 256).toNat ^ 2 +
          (((0 : ℤ) - 250) % 256).toNat ^ 2 ∧
      euclideanColor (1, 0, 0) (0, 0, 0) ≠ euclideanColor (0, 0, 0) (1, 0, 0) ∧
      euclidean_squared (1, 0, 0) (0, 0, 0) ≠ trueEuclideanSquared (1, 0, 0) (0, 0, 0) :=
  euclidean_squared_wrapping (3, 7, 250) (1, 9, 0) (by decide) (by decide) (by decide)
    (by decide) (by decide) (by decide)

/-! ## Dimension bookkeeping -/

theorem foldl_add_width (l : List PheromoneImage) (a : PheromoneImage) :
    (l.foldl PheromoneImage.add a).width = a.width := by
  induction l generalizing a with
  | nil => rfl
  | cons b l ih => simpa [PheromoneImage.add] using ih (a.add b)

theorem foldl_add_height (l : List PheromoneImage) (a : PheromoneImage) :
    (l.foldl PheromoneImage.add a).height = a.height := by
  induction l generalizing a with
  | nil => rfl
  | cons b l ih => simpa [PheromoneImage.add] using ih (a.add b)

theorem normalize_width (img : PheromoneImage) : img.normalize.width = img.width := by
  simp only [PheromoneImage.normalize]
  split <;> rfl

theorem normalize_height (img : PheromoneImage) : img.normalize.height = img.height := by
  simp only [PheromoneImage.normalize]
  split <;> rfl

theorem contour_width (pheromones : List PheromoneImage) (threshold : ℚ) :
    (contour_segmententation pheromones threshold).width =
      (pheromones.headD default).width := by
  unfold contour_segmententation extract_edges filter3x3 PheromoneImage.invert
    PheromoneImage.binarize
  simp [normalize_width, foldl_add_width]

theorem contour_height (pheromones : List PheromoneImage) (threshold : ℚ) :
    (contour_segmententation pheromones threshold).height =
      (pheromones.headD default).height := by
  unfold contour_segmententation extract_edges filter3x3 PheromoneImage.invert
    PheromoneImage.binarize
  simp [normalize_height, foldl_add_height]

/-! ## Claim C1 -/

/-- C1 counterexample: on a concrete 3×3 pheromone set, the corner pixel
of the contour image is not the exact-white background color (it is the
black fill of the fresh canvas), refuting the claim that the outermost
ring is background-colored. -/
theorem contour_ring_not_white_cex :
    (contour_segmententation [⟨3, 3, fun _ _ => 0⟩] (1 / 3)).pix ⟨0, 0⟩ ≠ white := by
  decide

/-- C1 (amended): for every pheromone channel set with width and height
at least 3 and every threshold, every pixel of the outermost 1-pixel
ring of the contour image is the black canvas color `(0,0,0)` — the
contour color, which region extraction treats as non-background — so no
contour leaks off the image edge. -/
theorem contour_ring_black (pheromones : List PheromoneImage) (threshold : ℚ) (p : Point)
    (hw : 3 ≤ (pheromones.headD default).width)
    (hh : 3 ≤ (pheromones.headD default).height)
    (hin : (contour_segmententation pheromones threshold).inB p)
    (hring : p.x = 0 ∨ p.y = 0 ∨
      p.x = ((contour_segmententation pheromones threshold).width : ℤ) - 1 ∨
      p.y = ((contour_segmententation pheromones threshold).height : ℤ) - 1) :
    (contour_segmententation pheromones threshold).pix p = black ∧ black ≠ white := by
  refine ⟨?_, by decide⟩
  have hwid := contour_width pheromones threshold
  have hhei := contour_height pheromones threshold
  obtain ⟨hx0, hxw, hy0, hyh⟩ := hin
  rw [hwid] at hxw hring
  rw [hhei] at hyh hring
  show (if 1 ≤ p.x ∧ p.x ≤ ((contour_segmententation pheromones threshold).width : ℤ) - 2 ∧
      1 ≤ p.y ∧ p.y ≤ ((contour_segmententation pheromones threshold).height : ℤ) - 2 then
        _ else black) = black
  rw [hwid, hhei]
  rcases hring with h | h | h | h <;>
    · rw [if_neg]
      omega

/-- Witness for the amended C1 at a concrete input. -/
theorem contour_ring_black_witness :
    (3 ≤ (([⟨3, 3, fun _ _ => (0 : ℚ)⟩] : List PheromoneImage).headD default).width ∧
      3 ≤ (([⟨3, 3, fun _ _ => (0 : ℚ)⟩] : List PheromoneImage).headD default).height ∧
      (contour_segmententation [⟨3, 3, fun _ _ => (0 : ℚ)⟩] (1 / 3)).inB ⟨0, 2⟩) ∧
    (contour_segmententation [⟨3, 3, fun _ _ => (0 : ℚ)⟩] (1 / 3)).pix ⟨0, 2⟩ = black ∧
      black ≠ white :=
  ⟨⟨by decide, by decide, by decide⟩,
    contour_ring_black [⟨3, 3, fun _ _ => 0⟩] (1 / 3) ⟨0, 2⟩ (by decide) (by decide)
      (by decide) (Or.inl rfl)⟩

theorem mem_domain {img : RgbImg} {p : Point} : p ∈ img.domain ↔ img.inB p := by
  unfold RgbImg.domain RgbImg.inB
  constructor
  · intro h
    simp only [Finset.mem_image, Finset.mem_product, Finset.mem_range, Prod.exists] at h
    obtain ⟨a, b, ⟨ha, hb⟩, rfl⟩ := h
    refine ⟨?_, ?_, ?_, ?_⟩ <;> simp <;> omega
  · rintro ⟨h1, h2, h3, h4⟩
    simp only [Finset.mem_image, Finset.mem_product, Finset.mem_range, Prod.exists]
    exact ⟨p.x.toNat, p.y.toNat, ⟨by omega, by omega⟩, by ext <;> simp <;> omega⟩

theorem adj4_iff {p q : Point} :
    adj4 p q ↔ (q.x = p.x + 1 ∧ q.y = p.y) ∨ (q.x = p.x - 1 ∧ q.y = p.y) ∨
      (q.x = p.x ∧ q.y = p.y + 1) ∨ (q.x = p.x ∧ q.y = p.y - 1) := by
  unfold adj4; omega

theorem adj4_symm {p q : Point} (h : adj4 p q) : adj4 q p := by
  unfold adj4 at h ⊢; omega

theorem fillCandidates_eq (p : Point) : fillCandidates p =
    [⟨max 0 (p.x + -1), max 0 (p.y + 0)⟩, ⟨max 0 (p.x + 0), max 0 (p.y + -1)⟩,
     ⟨max 0 (p.x + 0), max 0 (p.y + 1)⟩, ⟨max 0 (p.x + 1), max 0 (p.y + 0)⟩] := rfl

theorem fillCandidates_elim {p q : Point} (hq : q ∈ fillCandidates p) :
    (0 ≤ q.x ∧ 0 ≤ q.y) ∧ (0 ≤ p.x → 0 ≤ p.y → q = p ∨ adj4 p q) := by
  rw [fillCandidates_eq] at hq
  simp only [List.mem_cons, List.not_mem_nil, or_false] at hq
  rcases hq with rfl | rfl | rfl | rfl <;>
    exact ⟨⟨le_max_left _ _, le_max_left _ _⟩, fun hx hy => by
      simp only [Point.ext_iff, adj4]; omega⟩

theorem adj4_mem_fillCandidates {p q : Point} (hpx : 0 ≤ p.x) (hpy : 0 ≤ p.y)
    (hqx : 0 ≤ q.x) (hqy : 0 ≤ q.y) (h : adj4 p q) : q ∈ fillCandidates p := by
  rw [fillCandidates_eq]
  simp only [List.mem_cons, List.not_mem_nil, or_false, Point.ext_iff]
  unfold adj4 at h
  omega

namespace FillStep

variable {img0 : RgbImg} {orig color : Color} {start : Point}

variable {img : RgbImg} {F : Finset Point} {p : Point} {rest : List Point}

theorem mem_pushes {q : Point} : q ∈ pushes img F p color orig ↔
    q ∈ fillCandidates p ∧ inUpper (img.put p color) q ∧
      (img.put p color).pix q = orig ∧ q ∉ insert p F := by
  unfold pushes
  simp only [List.mem_filter, decide_eq_true_eq]

theorem put_pix_self : (img.put p color).pix p = color := by
  simp [RgbImg.put]

theorem put_pix_ne {q : Point} (h : q ≠ p) : (img.put p color).pix q = img.pix q := by
  simp [RgbImg.put, h]

theorem mem_pushes_elim (hco : color ≠ orig) {q : Point} (hq : q ∈ pushes img F p color orig) :
    q ≠ p ∧ img.pix q = orig ∧ q ∉ F ∧ inUpper img q ∧ q ∈ fillCandidates p := by
  rw [mem_pushes] at hq
  obtain ⟨hc, hu, hpix, hnf⟩ := hq
  have hne : q ≠ p := by
    rintro rfl
    rw [put_pix_self] at hpix
    exact hco hpix
  rw [put_pix_ne hne] at hpix
  exact ⟨hne, hpix, fun h => hnf (Finset.mem_insert_of_mem h), hu, hc⟩

theorem pushes_inB (inv : FillInv img0 orig color start img F (p :: rest))
    (hco : color ≠ orig) {q : Point} (hq : q ∈ pushes img F p color orig) : img0.inB q := by
  obtain ⟨hne, hpix, hnf, hu, hc⟩ := mem_pushes_elim hco hq
  obtain ⟨⟨hx, hy⟩, _⟩ := fillCandidates_elim hc
  obtain ⟨hw, hh⟩ := hu
  rw [inv.dimsW] at hw
  rw [inv.dimsH] at hh
  exact ⟨hx, hw, hy, hh⟩

theorem pushes_adj (inv : FillInv img0 orig color start img F (p :: rest))
    (hco : color ≠ orig) {q : Point} (hq : q ∈ pushes img F p color orig) : adj4 p q := by
  obtain ⟨hne, _, _, _, hc⟩ := mem_pushes_elim hco hq
  have hpB := inv.qInB p (List.mem_cons_self p rest)
  obtain ⟨_, h2⟩ := fillCandidates_elim hc
  rcases h2 hpB.1 hpB.2.2.1 with rfl | h
  · exact absurd rfl hne
  · exact h

/-- A point popped while already filled pushes nothing (the stack
discipline). -/
theorem pushes_nil_of_mem (inv : FillInv img0 orig color start img F (p :: rest))
    (hco : color ≠ orig) (hp : p ∈ F) : pushes img F p color orig = [] := by
  rw [List.eq_nil_iff_forall_not_mem]
  intro q hq
  obtain ⟨hne, hpix, hnf, hu, hc⟩ := mem_pushes_elim hco hq
  obtain ⟨j, hj, _⟩ := inv.lifo 0 p (by simp) hp q hc hu hpix hnf
  omega

/-- Preservation of the invariant through one pop of the loop. -/
theorem fillInv_pop (inv : FillInv img0 orig color start img F (p :: rest))
    (hco : color ≠ orig) :
    FillInv img0 orig color start (img.put p color) (insert p F)
      ((pushes img F p color orig).reverse ++ rest) := by
  have hpB := inv.qInB p (List.mem_cons_self p rest)
  have hpReach := inv.qReach p (List.mem_cons_self p rest)
  constructor
  -- dimsW
  · exact inv.dimsW
  -- dimsH
  · exact inv.dimsH
  -- paint
  · intro q
    by_cases hq : q = p
    · subst hq
      rw [put_pix_self, if_pos (Finset.mem_insert_self q F)]
    · rw [put_pix_ne hq, inv.paint q]
      by_cases hqF : q ∈ F
      · rw [if_pos hqF, if_pos (Finset.mem_insert_of_mem hqF)]
      · rw [if_neg hqF, if_neg (by simp [Finset.mem_insert, hq, hqF])]
  -- qInB
  · intro q hq
    rcases List.mem_append.mp hq with h | h
    · exact pushes_inB inv hco (List.mem_reverse.mp h)
    · exact inv.qInB q (List.mem_cons_of_mem p h)
  -- qReach
  · intro q hq
    rcases List.mem_append.mp hq with h | h
    · have hm := List.mem_reverse.mp h
      obtain ⟨hne, hpix, hnf, hu, hc⟩ := mem_pushes_elim hco hm
      have hqB := pushes_inB inv hco hm
      rw [inv.paint q, if_neg hnf] at hpix
      exact Relation.ReflTransGen.tail hpReach ⟨pushes_adj inv hco hm, hqB, hpix⟩
    · exact inv.qReach q (List.mem_cons_of_mem p h)
  -- qOrig
  · intro q hq hnf
    rcases List.mem_append.mp hq with h | h
    · have hm := List.mem_reverse.mp h
      obtain ⟨hne, hpix, hnf', hu, hc⟩ := mem_pushes_elim hco hm
      rw [inv.paint q, if_neg hnf'] at hpix
      exact hpix
    · exact inv.qOrig q (List.mem_cons_of_mem p h)
        (fun hF => hnf (Finset.mem_insert_of_mem hF))
  -- fInB
  · intro q hq
    rcases Finset.mem_insert.mp hq with rfl | hF
    · exact hpB
    · exact inv.fInB q hF
  -- fOrig
  · intro q hq
    rcases Finset.mem_insert.mp hq with rfl | hF
    · by_cases hqF : q ∈ F
      · exact inv.fOrig q hqF
      · exact inv.qOrig q (List.mem_cons_self q rest) hqF
    · exact inv.fOrig q hF
  -- fReach
  · intro q hq
    rcases Finset.mem_insert.mp hq with rfl | hF
    · exact hpReach
    · exact inv.fReach q hF
  -- front
  · intro r hr q hadj hqB hqO hqnF
    have hqne : q ≠ p := fun h => hqnF (h ▸ Finset.mem_insert_self p F)
    have hqF : q ∉ F := fun h => hqnF (Finset.mem_insert_of_mem h)
    rcases Finset.mem_insert.mp hr with rfl | hrF
    · -- r = p : q satisfies the push condition
      refine List.mem_append.mpr (Or.inl (List.mem_reverse.mpr ?_))
      rw [mem_pushes]
      refine ⟨adj4_mem_fillCandidates hpB.1 hpB.2.2.1 hqB.1 hqB.2.2.1 hadj, ?_, ?_, hqnF⟩
      · have : q.x < img.width ∧ q.y < img.height := by
          rw [inv.dimsW, inv.dimsH]
          exact ⟨hqB.2.1, hqB.2.2.2⟩
        exact this
      · rw [put_pix_ne hqne, inv.paint q, if_neg hqF]
        exact hqO
    · have := inv.front r hrF q hadj hqB hqO hqF
      rcases List.mem_cons.mp this with rfl | h
      · exact absurd rfl hqne
      · exact List.mem_append.mpr (Or.inr h)
  -- startIn
  · rcases inv.startIn with h | h
    · exact Or.inl (Finset.mem_insert_of_mem h)
    · rcases List.mem_cons.mp h with rfl | h
      · exact Or.inl (Finset.mem_insert_self start F)
      · exact Or.inr (List.mem_append.mpr (Or.inr h))
  -- lifo
  · intro i r hir hrF q hqc hqu hqpix hqnF
    have hqne : q ≠ p := fun h => hqnF (h ▸ Finset.mem_insert_self p F)
    have hqF : q ∉ F := fun h => hqnF (Finset.mem_insert_of_mem h)
    set ps := (pushes img F p color orig).reverse with hps
    by_cases hi : i < ps.length
    · -- the element at index i is one of the pushes, hence not filled
      have hr : r ∈ ps := by
        rw [List.getElem?_append_left hi] at hir
        exact List.getElem?_mem hir
      obtain ⟨_, _, hnf, _, _⟩ := mem_pushes_elim hco (List.mem_reverse.mp hr)
      rcases Finset.mem_insert.mp hrF with rfl | h
      · exact absurd rfl (mem_pushes_elim hco (List.mem_reverse.mp hr)).1
      · exact absurd h hnf
    · push_neg at hi
      have hir' : rest[i - ps.length]? = some r := by
        rw [List.getElem?_append_right hi] at hir
        exact hir
      -- translate the push condition back through the put
      have hqu' : inUpper img q := hqu
      have hqpix' : img.pix q = orig := by
        rw [put_pix_ne hqne] at hqpix
        exact hqpix
      rcases Finset.mem_insert.mp hrF with rfl | hrFold
      · -- r = p : q satisfies the push condition, so q is among the pushes
        have hqmem : q ∈ ps := by
          rw [hps, List.mem_reverse, mem_pushes]
          exact ⟨hqc, hqu, hqpix, hqnF⟩
        obtain ⟨j, hjlen, hjq⟩ := List.mem_iff_getElem.mp hqmem
        refine ⟨j, by omega, ?_⟩
        rw [List.getElem?_append_left hjlen, List.getElem?_eq_getElem hjlen, hjq]
      · -- r was already filled before this pop: use the old stack discipline
        obtain ⟨j, hj, hjq⟩ := inv.lifo (i - ps.length + 1) r
          (by rw [List.getElem?_cons_succ]; exact hir') hrFold q hqc hqu' hqpix' hqF
        rcases j with _ | j'
        · rw [List.getElem?_cons_zero] at hjq
          injection hjq with h
          exact absurd h.symm hqne
        · rw [List.getElem?_cons_succ] at hjq
          refine ⟨ps.length + j', by omega, ?_⟩
          rw [List.getElem?_append_right (by omega)]
          simpa using hjq

end FillStep

theorem fillGo_cons (color orig : Color) (fuel : ℕ) (img : RgbImg) (F : Finset Point)
    (p : Point) (rest : List Point) :
    fillGo color orig (fuel + 1) img F (p :: rest) =
      fillGo color orig fuel (img.put p color) (insert p F)
        ((pushes img F p color orig).reverse ++ rest) := rfl

theorem fillCandidates_length (p : Point) : (fillCandidates p).length = 4 := rfl

/-- The loop of `fill_connected` terminates (empties its queue) within
the measure-derived fuel, and the invariant transports to the final
state. -/
theorem fillGo_spec {img0 : RgbImg} {orig color : Color} {start : Point}
    (hco : color ≠ orig) :
    ∀ (fuel : ℕ) (img : RgbImg) (F : Finset Point) (Q : List Point),
      FillInv img0 orig color start img F Q →
      4 * (img0.domain \ F).card + Q.length ≤ fuel →
      FillInv img0 orig color start (fillGo color orig fuel img F Q).1
          (fillGo color orig fuel img F Q).2.1 (fillGo color orig fuel img F Q).2.2 ∧
        (fillGo color orig fuel img F Q).2.2 = [] ∧
        F ⊆ (fillGo color orig fuel img F Q).2.1 := by
  intro fuel
  induction fuel with
  | zero =>
      intro img F Q inv hm
      have hlen : Q.length = 0 := by omega
      have hQ : Q = [] := List.length_eq_zero.mp hlen
      subst hQ
      exact ⟨inv, rfl, le_refl F⟩
  | succ fuel ih =>
      intro img F Q inv hm
      match Q with
      | [] => exact ⟨inv, rfl, le_refl F⟩
      | p :: rest =>
          rw [fillGo_cons]
          have hpB := inv.qInB p (List.mem_cons_self p rest)
          have step := FillStep.fillInv_pop inv hco
          by_cases hpF : p ∈ F
          · -- duplicate pop: nothing is pushed, the filled set is unchanged
            have hnil := FillStep.pushes_nil_of_mem inv hco hpF
            have hFeq : insert p F = F := Finset.insert_eq_self.mpr hpF
            have hmeas : 4 * (img0.domain \ insert p F).card +
                ((pushes img F p color orig).reverse ++ rest).length ≤ fuel := by
              rw [hFeq, hnil]
              simp only [List.reverse_nil, List.nil_append]
              simp only [List.length_cons] at hm
              omega
            obtain ⟨hinv, hq, hsub⟩ := ih (img.put p color) (insert p F)
              ((pushes img F p color orig).reverse ++ rest) step hmeas
            exact ⟨hinv, hq, fun a ha => hsub (Finset.mem_insert_of_mem ha)⟩
          · -- fresh pop: the unfilled count strictly decreases
            have hpD : p ∈ img0.domain \ F := by
              rw [Finset.mem_sdiff]
              exact ⟨mem_domain.mpr hpB, hpF⟩
            have hcard : (img0.domain \ insert p F).card = (img0.domain \ F).card - 1 := by
              rw [Finset.sdiff_insert]
              exact Finset.card_erase_of_mem hpD
            have hcpos : 1 ≤ (img0.domain \ F).card := Finset.card_pos.mpr ⟨p, hpD⟩
            have hlen : (pushes img F p color orig).length ≤ 4 := by
              have := List.length_filter_le (fun q =>
                decide (inUpper (img.put p color) q ∧ (img.put p color).pix q = orig ∧
                  q ∉ insert p F)) (fillCandidates p)
              rw [fillCandidates_length] at this
              exact this
            have hmeas : 4 * (img0.domain \ insert p F).card +
                ((pushes img F p color orig).reverse ++ rest).length ≤ fuel := by
              rw [List.length_append, List.length_reverse, hcard]
              simp only [List.length_cons] at hm
              omega
            obtain ⟨hinv, hq, hsub⟩ := ih (img.put p color) (insert p F)
              ((pushes img F p color orig).reverse ++ rest) step hmeas
            exact ⟨hinv, hq, fun a ha => hsub (Finset.mem_insert_of_mem ha)⟩

/-- Reading off the final state: the filled set is exactly the
4-connected same-color component of the start. -/
theorem fillInv_final {img0 : RgbImg} {orig color : Color} {start : Point}
    {img : RgbImg} {F : Finset Point}
    (h : FillInv img0 orig color start img F [])
    (hin : img0.inB start) (horig : img0.pix start = orig) :
    (∀ q, q ∈ F ↔ origPred img0 orig q ∧ reach (origPred img0 orig) start q) ∧
      img.width = img0.width ∧ img.height = img0.height ∧
      (∀ q, img.pix q = if q ∈ F then color else img0.pix q) := by
  have hstartF : start ∈ F := by
    rcases h.startIn with hs | hs
    · exact hs
    · exact absurd hs (List.not_mem_nil start)
  refine ⟨fun q => ⟨fun hq => ⟨⟨h.fInB q hq, h.fOrig q hq⟩, h.fReach q hq⟩, fun hq => ?_⟩,
    h.dimsW, h.dimsH, h.paint⟩
  obtain ⟨hP, hr⟩ := hq
  clear hP
  induction hr with
  | refl => exact hstartF
  | tail hab hstep ih =>
      rename_i b c
      obtain ⟨hadj, hcB, hcO⟩ := hstep
      by_contra hcF
      exact List.not_mem_nil c (h.front b ih c hadj hcB hcO hcF)

theorem domain_card_le (img : RgbImg) : img.domain.card ≤ img.width * img.height := by
  unfold RgbImg.domain
  calc ((Finset.range img.width ×ˢ Finset.range img.height).image
        fun ab => (⟨ab.1, ab.2⟩ : Point)).card
      ≤ (Finset.range img.width ×ˢ Finset.range img.height).card := Finset.card_image_le
    _ = img.width * img.height := by rw [Finset.card_product, Finset.card_range,
        Finset.card_range]

/-- Specification of `fill_connected`: starting at an in-bounds pixel
and filling with a color different from the original one, the returned
set is exactly the 4-connected component (over the original color) of
the start, and the returned image is the input with exactly that set
painted over. -/
theorem fill_connected_spec (img : RgbImg) (color : Color) (s : Point)
    (hin : img.inB s) (hco : color ≠ img.pix s) :
    (∀ q, q ∈ (fill_connected img color s).2 ↔
        origPred img (img.pix s) q ∧ reach (origPred img (img.pix s)) s q) ∧
      (fill_connected img color s).1.width = img.width ∧
      (fill_connected img color s).1.height = img.height ∧
      (∀ q, (fill_connected img color s).1.pix q =
        if q ∈ (fill_connected img color s).2 then color else img.pix q) := by
  have inv0 : FillInv img (img.pix s) color s img ∅ [s] := by
    constructor
    · rfl
    · rfl
    · intro p
      rw [if_neg (Finset.not_mem_empty p)]
    · intro p hp
      rw [List.mem_singleton] at hp
      subst hp
      exact hin
    · intro p hp
      rw [List.mem_singleton] at hp
      subst hp
      exact Relation.ReflTransGen.refl
    · intro p hp _
      rw [List.mem_singleton] at hp
      subst hp
      rfl
    · intro p hp
      exact absurd hp (Finset.not_mem_empty p)
    · intro p hp
      exact absurd hp (Finset.not_mem_empty p)
    · intro p hp
      exact absurd hp (Finset.not_mem_empty p)
    · intro p hp
      exact absurd hp (Finset.not_mem_empty p)
    · exact Or.inr (List.mem_singleton.mpr rfl)
    · intro i p hip hp
      exact absurd hp (Finset.not_mem_empty p)
  have hmeas : 4 * (img.domain \ ∅).card + [s].length ≤
      4 * img.width * img.height + 2 := by
    rw [Finset.sdiff_empty,
      show 4 * img.width * img.height = 4 * (img.width * img.height) from by ring]
    have := domain_card_le img
    simp only [List.length_singleton]
    omega
  obtain ⟨hinv, hq, _⟩ := fillGo_spec hco (4 * img.width * img.height + 2) img ∅ [s]
    inv0 hmeas
  rw [hq] at hinv
  have := fillInv_final hinv hin rfl
  exact this

/-! ## Segment-extraction correctness -/

theorem generate_unique_color_spec (n : ℕ) :
    (generate_unique_color n).1 ≤ 254 ∧ (generate_unique_color n).2.1 ≤ 254 ∧
      (generate_unique_color n).2.2 ≤ 254 ∧ generate_unique_color n ≠ white := by
  unfold generate_unique_color generate_color white
  dsimp only
  refine ⟨by omega, by omega, by omega, ?_⟩
  intro h
  rw [Prod.ext_iff, Prod.ext_iff] at h
  dsimp only at h
  omega

theorem mem_colorSet {img : RgbImg} {c : Color} {q : Point} :
    q ∈ img.colorSet c ↔ img.inB q ∧ img.pix q = c := by
  unfold RgbImg.colorSet
  rw [Finset.mem_filter, mem_domain]

theorem mem_scanPoints {w h : ℕ} {p : Point} :
    p ∈ scanPoints w h ↔ 0 ≤ p.x ∧ p.x < w ∧ 0 ≤ p.y ∧ p.y < h := by
  unfold scanPoints
  simp only [List.mem_flatMap, List.mem_map, List.mem_range]
  constructor
  · rintro ⟨y, hy, x, hx, rfl⟩
    refine ⟨?_, ?_, ?_, ?_⟩ <;> simp <;> omega
  · rintro ⟨h1, h2, h3, h4⟩
    exact ⟨p.y.toNat, by omega, p.x.toNat, by omega, by ext <;> simp <;> omega⟩

theorem findBlank_some {img : RgbImg} {p : Point} (h : findBlank img = some p) :
    img.inB p ∧ img.pix p = white := by
  unfold findBlank at h
  have hmem := mem_scanPoints.mp (List.mem_of_find?_eq_some h)
  have hpred := List.find?_some h
  rw [decide_eq_true_eq] at hpred
  exact ⟨hmem, hpred⟩

theorem findBlank_none {img : RgbImg} (h : findBlank img = none) :
    ∀ p, img.inB p → img.pix p ≠ white := by
  intro p hp hw
  have := List.find?_eq_none.mp h p (mem_scanPoints.mpr hp)
  rw [decide_eq_true_eq] at this
  exact this hw

/-- A 4-connected component is closed under white adjacency. -/
theorem component_closed {img0 : RgbImg} {p a b : Point}
    (ha : origPred img0 white a ∧ reach (origPred img0 white) p a)
    (hadj : adj4 a b) (hb : origPred img0 white b) :
    origPred img0 white b ∧ reach (origPred img0 white) p b :=
  ⟨hb, Relation.ReflTransGen.tail ha.2 ⟨hadj, hb⟩⟩

/-- The endpoint of a `reach` path is the start or satisfies the
predicate. -/
theorem reach_last {W : Point → Prop} {s q : Point} (h : reach W s q) : q = s ∨ W q := by
  induction h with
  | refl => exact Or.inl rfl
  | tail _ hstep _ => exact Or.inr hstep.2

/-- Removing a set `U` that is closed under white adjacency (a union of
whole components) does not cut any path that starts outside `U`. -/
theorem reach_restrict {W U : Point → Prop}
    (hU : ∀ a b, U a → adj4 a b → W b → U b)
    {s : Point} (hsW : W s) (hsU : ¬ U s) :
    ∀ q, reach W s q → reach (fun r => W r ∧ ¬ U r) s q := by
  intro q h
  induction h with
  | refl => exact Relation.ReflTransGen.refl
  | tail hab hstep ih =>
      rename_i b c
      obtain ⟨hadj, hWc⟩ := hstep
      have hWb : W b := by
        rcases reach_last hab with rfl | h
        · exact hsW
        · exact h
      have hUc : ¬ U c := by
        intro hc
        have hUb : U b := hU c b hc (adj4_symm hadj) hWb
        rcases reach_last ih with rfl | ⟨_, hnb⟩
        · exact hsU hUb
        · exact hnb hUb
      exact Relation.ReflTransGen.tail ih ⟨hadj, hWc, hUc⟩

/-- Conversely, restricted reachability implies plain reachability. -/
theorem reach_unrestrict {W U : Point → Prop} {s q : Point}
    (h : reach (fun r => W r ∧ ¬ U r) s q) : reach W s q :=
  Relation.ReflTransGen.mono (fun _ _ hab => ⟨hab.1, hab.2.1⟩) h

theorem inB_congr {img img0 : RgbImg} (hw : img.width = img0.width)
    (hh : img.height = img0.height) (q : Point) : img.inB q ↔ img0.inB q := by
  unfold RgbImg.inB
  rw [hw, hh]

/-- One iteration of the extraction loop: the filled set is a whole
component of the original image, and the white pixels shrink by exactly
that set. -/
theorem extInv_step {img0 img : RgbImg} {segs : List (Finset Point)}
    (inv : ExtInv img0 img segs) {s : Point} (hfb : findBlank img = some s) :
    ExtInv img0 (fill_connected img (generate_unique_color segs.length) s).1
        (segs ++ [(fill_connected img (generate_unique_color segs.length) s).2]) ∧
      (fill_connected img (generate_unique_color segs.length) s).1.colorSet white =
        img.colorSet white \ (fill_connected img (generate_unique_color segs.length) s).2 ∧
      s ∈ (fill_connected img (generate_unique_color segs.length) s).2 ∧
      s ∈ img.colorSet white := by
  obtain ⟨hsB, hsW⟩ := findBlank_some hfb
  set c := generate_unique_color segs.length with hc
  have hcw : c ≠ white := (generate_unique_color_spec segs.length).2.2.2
  have hco : c ≠ img.pix s := by rw [hsW]; exact hcw
  obtain ⟨hmem, hw, hh, hpaint⟩ := fill_connected_spec img c s hsB hco
  set F := (fill_connected img c s).2 with hF
  -- predicates
  set W : Point → Prop := origPred img0 white with hWdef
  set U : Point → Prop := fun q => ∃ t ∈ segs, q ∈ t with hUdef
  have hWcur : ∀ q, origPred img (img.pix s) q ↔ (W q ∧ ¬ U q) := by
    intro q
    rw [hsW]
    unfold origPred
    rw [inB_congr inv.dimsW inv.dimsH, inv.whiteEq q]
    constructor
    · rintro ⟨h1, h2, h3⟩
      exact ⟨⟨h1, h2⟩, fun ⟨t, ht, hq⟩ => h3 t ht hq⟩
    · rintro ⟨⟨h1, h2⟩, h3⟩
      exact ⟨h1, h2, fun t ht hq => h3 ⟨t, ht, hq⟩⟩
  have hUclosed : ∀ a b, U a → adj4 a b → W b → U b := by
    rintro a b ⟨t, ht, ha⟩ hadj hb
    obtain ⟨p, hp, hiff⟩ := inv.comps t ht
    refine ⟨t, ht, ?_⟩
    rw [hiff]
    exact component_closed (hiff a |>.mp ha) hadj hb
  have hWs : W s := by
    rw [hWdef]
    exact ⟨(inB_congr inv.dimsW inv.dimsH s).mp hsB, ((inv.whiteEq s).mp hsW).1⟩
  have hUs : ¬ U s := by
    rintro ⟨t, ht, hq⟩
    exact ((inv.whiteEq s).mp hsW).2 t ht hq
  -- the filled set is exactly the component of s in the original image
  have hFiff : ∀ q, q ∈ F ↔ W q ∧ reach W s q := by
    intro q
    rw [hmem q]
    constructor
    · rintro ⟨hq1, hq2⟩
      rw [hWcur q] at hq1
      refine ⟨hq1.1, ?_⟩
      refine reach_unrestrict (U := U) ?_
      refine Relation.ReflTransGen.mono (fun a b hab => ⟨hab.1, ?_⟩) hq2
      show W b ∧ ¬ U b
      rw [← hWcur b]
      exact hab.2
    · rintro ⟨hq1, hq2⟩
      have hres := reach_restrict hUclosed hWs hUs q hq2
      have hUq : ¬ U q := by
        rcases reach_last hres with rfl | hlast
        · exact hUs
        · exact hlast.2
      constructor
      · rw [hWcur q]
        exact ⟨hq1, hUq⟩
      · refine Relation.ReflTransGen.mono (fun a b hab => ⟨hab.1, ?_⟩) hres
        rw [hWcur b]
        exact hab.2
  have hFsub : ∀ q ∈ F, img.pix q = white ∧ img.inB q := by
    intro q hq
    have := (hmem q).mp hq
    rw [hsW] at this
    exact ⟨this.1.2, this.1.1⟩
  refine ⟨⟨?_, ?_, ?_, ?_, ?_⟩, ?_, ?_, ?_⟩
  · rw [hw, inv.dimsW]
  · rw [hh, inv.dimsH]
  · -- whiteEq
    intro q
    rw [hpaint q]
    by_cases hqF : q ∈ F
    · rw [if_pos hqF]
      constructor
      · intro hcq
        exact absurd hcq hcw
      · rintro ⟨_, hall⟩
        exact absurd hqF (hall F (by simp))
    · rw [if_neg hqF, inv.whiteEq q]
      constructor
      · rintro ⟨h1, h2⟩
        refine ⟨h1, fun t ht => ?_⟩
        rcases List.mem_append.mp ht with h | h
        · exact h2 t h
        · rw [List.mem_singleton] at h
          subst h
          exact hqF
      · rintro ⟨h1, h2⟩
        exact ⟨h1, fun t ht => h2 t (List.mem_append.mpr (Or.inl ht))⟩
  · -- comps
    intro t ht
    rcases List.mem_append.mp ht with h | h
    · exact inv.comps t h
    · rw [List.mem_singleton] at h
      subst h
      exact ⟨s, hWs, hFiff⟩
  · -- disj
    rw [List.pairwise_append]
    refine ⟨inv.disj, List.pairwise_singleton _ _, ?_⟩
    intro t ht F' hF' q hqt
    rw [List.mem_singleton] at hF'
    subst hF'
    intro hqF
    have hUq : ¬ U q := by
      rcases reach_last (reach_restrict hUclosed hWs hUs q ((hFiff q).mp hqF).2) with
        rfl | hlast
      · exact hUs
      · exact hlast.2
    exact hUq ⟨t, ht, hqt⟩
  · -- the white set shrinks by exactly F
    ext q
    rw [Finset.mem_sdiff, mem_colorSet, mem_colorSet, hpaint q,
      inB_congr hw hh]
    by_cases hqF : q ∈ F
    · rw [if_pos hqF]
      constructor
      · rintro ⟨_, hcq⟩
        exact absurd hcq hcw
      · rintro ⟨_, hq⟩
        exact absurd hqF hq
    · rw [if_neg hqF]
      constructor
      · rintro ⟨h1, h2⟩
        exact ⟨⟨h1, h2⟩, hqF⟩
      · rintro ⟨⟨h1, h2⟩, _⟩
        exact ⟨h1, h2⟩
  · -- s is filled
    rw [hFiff s]
    exact ⟨hWs, Relation.ReflTransGen.refl⟩
  · rw [mem_colorSet]
    exact ⟨hsB, hsW⟩

theorem extractGo_none (fuel : ℕ) (img : RgbImg) (segs : List (Finset Point))
    (h : findBlank img = none) : extractGo (fuel + 1) img segs = (img, segs) := by
  simp [extractGo, h]

theorem extractGo_some (fuel : ℕ) (img : RgbImg) (segs : List (Finset Point)) (s : Point)
    (h : findBlank img = some s) :
    extractGo (fuel + 1) img segs =
      extractGo fuel (fill_connected img (generate_unique_color segs.length) s).1
        (segs ++ [(fill_connected img (generate_unique_color segs.length) s).2]) := by
  simp [extractGo, h]

/-- The extraction loop terminates (no white pixel remains) and
preserves the invariant, given fuel exceeding the white-pixel count. -/
theorem extractGo_spec {img0 : RgbImg} :
    ∀ (fuel : ℕ) (img : RgbImg) (segs : List (Finset Point)),
      ExtInv img0 img segs → (img.colorSet white).card < fuel →
      ExtInv img0 (extractGo fuel img segs).1 (extractGo fuel img segs).2 ∧
        findBlank (extractGo fuel img segs).1 = none := by
  intro fuel
  induction fuel with
  | zero =>
      intro img segs _ hcard
      exact absurd hcard (by omega)
  | succ fuel ih =>
      intro img segs inv hcard
      cases hfb : findBlank img with
      | none =>
          rw [extractGo_none fuel img segs hfb]
          exact ⟨inv, hfb⟩
      | some s =>
          rw [extractGo_some fuel img segs s hfb]
          obtain ⟨inv', hwhites, hsF, hsW⟩ := extInv_step inv hfb
          have hcard' : ((fill_connected img (generate_unique_color segs.length) s).1.colorSet
              white).card < fuel := by
            have hlt : ((fill_connected img (generate_unique_color segs.length) s).1.colorSet
                white).card < (img.colorSet white).card := by
              rw [hwhites]
              refine Finset.card_lt_card ?_
              rw [Finset.ssubset_iff_of_subset (Finset.sdiff_subset)]
              exact ⟨s, hsW, fun hmem => (Finset.mem_sdiff.mp hmem).2 hsF⟩
            omega
          exact ih _ _ inv' hcard'

theorem extInv_init (img : RgbImg) : ExtInv img img [] := by
  refine ⟨rfl, rfl, ?_, ?_, List.Pairwise.nil⟩
  · intro q
    simp
  · intro s hs
    exact absurd hs (List.not_mem_nil s)

theorem extract_segments_terminated (img : RgbImg) :
    ExtInv img (extract_segments img).1 (extract_segments img).2 ∧
      findBlank (extract_segments img).1 = none := by
  unfold extract_segments
  apply extractGo_spec _ _ _ (extInv_init img)
  have h1 : (img.colorSet white).card ≤ img.domain.card := Finset.card_filter_le _ _
  have h2 := domain_card_le img
  omega

/-! ## Claim C7 -/

/-- C7: `extract_segments` returns pairwise-disjoint segments whose
union is exactly the set of exact-white pixels of the input, each
segment being one maximal 4-connected white region; a single fully
4-connected white region yields exactly one segment equal to that
region. -/
theorem extract_segments_partition (img : RgbImg) :
    List.Pairwise (fun s t => ∀ q, q ∈ s → q ∉ t) (extract_segments img).2 ∧
      (∀ q, (∃ s ∈ (extract_segments img).2, q ∈ s) ↔ q ∈ img.colorSet white) ∧
      (∀ s ∈ (extract_segments img).2, ∃ p, origPred img white p ∧
        ∀ q, q ∈ s ↔ origPred img white q ∧ reach (origPred img white) p q) ∧
      ((img.colorSet white).Nonempty →
        (∀ p q, p ∈ img.colorSet white → q ∈ img.colorSet white →
          reach (origPred img white) p q) →
        ∃ s, (extract_segments img).2 = [s] ∧ s = img.colorSet white) := by
  obtain ⟨inv, hnone⟩ := extract_segments_terminated img
  have hunion : ∀ q, (∃ s ∈ (extract_segments img).2, q ∈ s) ↔ q ∈ img.colorSet white := by
    intro q
    constructor
    · rintro ⟨s, hs, hq⟩
      obtain ⟨p, _, hiff⟩ := inv.comps s hs
      obtain ⟨⟨h1, h2⟩, _⟩ := (hiff q).mp hq
      exact mem_colorSet.mpr ⟨h1, h2⟩
    · intro hq
      obtain ⟨h1, h2⟩ := mem_colorSet.mp hq
      by_contra hno
      push_neg at hno
      have hw : (extract_segments img).1.pix q = white :=
        (inv.whiteEq q).mpr ⟨h2, fun s hs => hno s hs⟩
      have hb : (extract_segments img).1.inB q :=
        (inB_congr inv.dimsW inv.dimsH q).mpr h1
      exact findBlank_none hnone q hb hw
  refine ⟨inv.disj, hunion, inv.comps, ?_⟩
  rintro ⟨w0, hw0⟩ hmutual
  have hall : ∀ s ∈ (extract_segments img).2, s = img.colorSet white := by
    intro s hs
    obtain ⟨p, hp, hiff⟩ := inv.comps s hs
    have hpmem : p ∈ img.colorSet white := mem_colorSet.mpr hp
    ext q
    rw [hiff q]
    constructor
    · rintro ⟨h1, _⟩
      exact mem_colorSet.mpr h1
    · intro hq
      exact ⟨mem_colorSet.mp hq, hmutual p q hpmem hq⟩
  cases hsegs : (extract_segments img).2 with
  | nil =>
      obtain ⟨s, hs, _⟩ := (hunion w0).mpr hw0
      rw [hsegs] at hs
      exact absurd hs (List.not_mem_nil s)
  | cons s0 rest =>
      refine ⟨s0, ?_, hall s0 (by rw [hsegs]; exact List.mem_cons_self s0 rest)⟩
      cases rest with
      | nil => rfl
      | cons s1 rest' =>
          exfalso
          have hd := inv.disj
          rw [hsegs] at hd
          have hpair := (List.pairwise_cons.mp hd).1 s1 (List.mem_cons_self s1 rest')
          have h0 : s0 = img.colorSet white :=
            hall s0 (by rw [hsegs]; exact List.mem_cons_self s0 (s1 :: rest'))
          have h1 : s1 = img.colorSet white :=
            hall s1 (by rw [hsegs]
                        exact List.mem_cons_of_mem s0 (List.mem_cons_self s1 rest'))
          exact hpair w0 (by rw [h0]; exact hw0) (by rw [h1]; exact hw0)

/-- Witness for C7 on a concrete 1×1 all-white image: exactly one
segment covering the single white pixel. -/
theorem extract_segments_partition_witness :
    ∃ s, (extract_segments ⟨1, 1, fun _ => white⟩).2 = [s] ∧
      s = (⟨1, 1, fun _ => white⟩ : RgbImg).colorSet white := by
  apply (extract_segments_partition ⟨1, 1, fun _ => white⟩).2.2.2
  · exact ⟨⟨0, 0⟩, by decide⟩
  · intro p q hp hq
    obtain ⟨hp1, _⟩ := mem_colorSet.mp hp
    obtain ⟨hq1, _⟩ := mem_colorSet.mp hq
    have : p = q := by
      obtain ⟨a1, a2, a3, a4⟩ := hp1
      obtain ⟨b1, b2, b3, b4⟩ := hq1
      ext <;> simp at a2 a4 b2 b4 <;> omega
    subst this
    exact Relation.ReflTransGen.refl

/-! ## Claim C10 -/

/-- After one successful blank search, the fill strictly shrinks the
white-pixel set (the fill color is never white). -/
theorem fill_white_shrink (img : RgbImg) (n : ℕ) {s : Point}
    (hfb : findBlank img = some s) :
    ((fill_connected img (generate_unique_color n) s).1.colorSet white).card <
      (img.colorSet white).card := by
  obtain ⟨hsB, hsW⟩ := findBlank_some hfb
  have hcw : generate_unique_color n ≠ white := (generate_unique_color_spec n).2.2.2
  have hco : generate_unique_color n ≠ img.pix s := by rw [hsW]; exact hcw
  obtain ⟨hmem, hw, hh, hpaint⟩ := fill_connected_spec img (generate_unique_color n) s hsB hco
  have hsF : s ∈ (fill_connected img (generate_unique_color n) s).2 := by
    rw [hmem s]
    exact ⟨⟨hsB, rfl⟩, Relation.ReflTransGen.refl⟩
  have hsub : (fill_connected img (generate_unique_color n) s).1.colorSet white =
      img.colorSet white \ (fill_connected img (generate_unique_color n) s).2 := by
    ext q
    rw [Finset.mem_sdiff, mem_colorSet, mem_colorSet, hpaint q, inB_congr hw hh]
    by_cases hqF : q ∈ (fill_connected img (generate_unique_color n) s).2
    · rw [if_pos hqF]
      constructor
      · rintro ⟨_, hcq⟩
        exact absurd hcq hcw
      · rintro ⟨_, hq⟩
        exact absurd hqF hq
    · rw [if_neg hqF]
      exact ⟨fun ⟨h1, h2⟩ => ⟨⟨h1, h2⟩, hqF⟩, fun ⟨⟨h1, h2⟩, _⟩ => ⟨h1, h2⟩⟩
  rw [hsub]
  refine Finset.card_lt_card ?_
  rw [Finset.ssubset_iff_of_subset (Finset.sdiff_subset)]
  exact ⟨s, mem_colorSet.mpr ⟨hsB, hsW⟩, fun hmem' => (Finset.mem_sdiff.mp hmem').2 hsF⟩

/-- C10: every color produced by `generate_unique_color` has all RGB
components in `0..=254` and is never the exact-white background color;
consequently each iteration of the `extract_segments` loop strictly
decreases the number of exact-white pixels, and the loop terminates
(no white pixel is left when it exits). -/
theorem generate_unique_color_white_decrease :
    (∀ n, (generate_unique_color n).1 ≤ 254 ∧ (generate_unique_color n).2.1 ≤ 254 ∧
      (generate_unique_color n).2.2 ≤ 254 ∧ generate_unique_color n ≠ white) ∧
      (∀ (img : RgbImg) (n : ℕ) (s : Point), findBlank img = some s →
        ((fill_connected img (generate_unique_color n) s).1.colorSet white).card <
          (img.colorSet white).card) ∧
      (∀ img : RgbImg, findBlank (extract_segments img).1 = none) :=
  ⟨generate_unique_color_spec, fun img n _ hfb => fill_white_shrink img n hfb,
    fun img => (extract_segments_terminated img).2⟩

/-- Witness for C10 at a concrete image and segment index. -/
theorem generate_unique_color_white_decrease_witness :
    findBlank ⟨1, 1, fun _ => white⟩ = some ⟨0, 0⟩ ∧
      ((fill_connected ⟨1, 1, fun _ => white⟩ (generate_unique_color 0)
          ⟨0, 0⟩).1.colorSet white).card <
        ((⟨1, 1, fun _ => white⟩ : RgbImg).colorSet white).card :=
  ⟨by decide, generate_unique_color_white_decrease.2.1 ⟨1, 1, fun _ => white⟩ 0 ⟨0, 0⟩
    (by decide)⟩

/-! ## Claim C4 -/

/-- C4 counterexample: a single policy array declaring 4 channels is
accepted by `AntColonyRules::new`, although the claim's condition
(more than 3 channels declared) says construction must fail.  The
check in the source bounds the number of policy *arrays* (at most 2:
initialization and local layers), not the channel count. -/
theorem rules_new_cex :
    claimedInvalidConfig [[none, none, none, none]] ∧
      exceptOk (AntColonyRules.new 1 1 false none 1 [[none, none, none, none]] none) =
        true := by
  constructor
  · right
    left
    simp [claimedInvalidConfig]
  · rfl

/-- C4 (amended): `AntColonyRules::new` fails exactly when the declared
channel count (the length of the first policy array; zero when no
arrays are supplied) is zero, when more than two policy arrays are
supplied, or when the policy arrays have unequal lengths; for every
other input it succeeds. -/
theorem rules_new_ok_iff (max_ant_steps ants_per_global_update : ℕ) (ants_return : Bool)
    (parallelity : Option ℕ) (available_parallelism : ℕ)
    (pheromone_functions : List (List (Option UpdateFn)))
    (global_update_func : Option GlobalUpdateFn) :
    exceptOk (AntColonyRules.new max_ant_steps ants_per_global_update ants_return
        parallelity available_parallelism pheromone_functions global_update_func) = true ↔
      ((pheromone_functions.headD []).length ≠ 0 ∧ pheromone_functions.length ≤ 2 ∧
        ∀ row ∈ pheromone_functions, row.length = (pheromone_functions.headD []).length) := by
  unfold AntColonyRules.new
  by_cases h0 : pheromone_functions.length > 0
  · simp only [if_pos h0]
    split_ifs with h1 h2 h3 <;> simp only [exceptOk]
    · constructor
      · intro h
        exact absurd h (by simp)
      · rintro ⟨hne, _⟩
        omega
    · constructor
      · intro h
        exact absurd h (by simp)
      · rintro ⟨_, hle, _⟩
        omega
    · constructor
      · intro h
        exact absurd h (by simp)
      · rintro ⟨_, _, hall⟩
        rw [List.any_eq_true] at h3
        obtain ⟨row, hrow, hne⟩ := h3
        exact (bne_iff_ne.mp hne (hall row hrow)).elim
    all_goals
      · simp only [true_iff]
        refine ⟨by omega, by omega, ?_⟩
        intro row hrow
        rw [List.any_eq_true] at h3
        push_neg at h3
        have hrr := h3 row hrow
        simpa using hrr
  · simp only [if_neg h0]
    have hnil : pheromone_functions = [] := by
      cases pheromone_functions with
      | nil => rfl
      | cons a l => simp at h0
    subst hnil
    simp [exceptOk]

/-- Witness for the amended C4 at a concrete accepted configuration. -/
theorem rules_new_ok_iff_witness :
    exceptOk (AntColonyRules.new 5 4 true (some 2) 1 [[none], [none]] none) = true ∧
      (([[none], [none]] : List (List (Option UpdateFn))).headD []).length ≠ 0 := by
  constructor
  · rfl
  · exact (rules_new_ok_iff 5 4 true (some 2) 1 [[none], [none]] none |>.mp rfl).1

theorem zipAddChannels_nil (t : List PheromoneImage) : zipAddChannels t [] = t := by
  simp [zipAddChannels]

theorem zipAddChannels_cons (x : PheromoneImage) (t : List PheromoneImage)
    (p : PheromoneImage) (ps : List PheromoneImage) :
    zipAddChannels (x :: t) (p :: ps) = x.add p :: zipAddChannels t ps := by
  simp [zipAddChannels]

theorem add_right_comm' (x a b : PheromoneImage) : (x.add a).add b = (x.add b).add a := by
  apply PheromoneImage.ext'
  · rfl
  · rfl
  · intro u v
    simp only [PheromoneImage.add]
    ring

theorem zipAddChannels_swap (t a b : List PheromoneImage) :
    zipAddChannels (zipAddChannels t a) b = zipAddChannels (zipAddChannels t b) a := by
  induction t generalizing a b with
  | nil =>
      simp [zipAddChannels]
  | cons x t ih =>
      cases a with
      | nil => rw [zipAddChannels_nil, zipAddChannels_nil]
      | cons p ps =>
          cases b with
          | nil => rw [zipAddChannels_nil, zipAddChannels_nil]
          | cons q qs =>
              rw [zipAddChannels_cons, zipAddChannels_cons, zipAddChannels_cons,
                zipAddChannels_cons, ih, add_right_comm']

theorem foldl_union_eq (l : List (Finset Point)) :
    ∀ s : Finset Point, l.foldl (fun a v => a ∪ v) s =
      s ∪ l.foldl (fun a v => a ∪ v) ∅ := by
  induction l with
  | nil => intro s; simp
  | cons a l ih =>
      intro s
      rw [List.foldl_cons, List.foldl_cons, ih (s ∪ a), ih (∅ ∪ a)]
      rw [Finset.empty_union, Finset.union_assoc]

theorem foldl_union_swap (s : Finset Point) (l1 l2 : List (Finset Point)) :
    l2.foldl (fun a v => a ∪ v) (l1.foldl (fun a v => a ∪ v) s) =
      l1.foldl (fun a v => a ∪ v) (l2.foldl (fun a v => a ∪ v) s) := by
  rw [foldl_union_eq l2 (l1.foldl (fun a v => a ∪ v) s), foldl_union_eq l1 s,
    foldl_union_eq l1 (l2.foldl (fun a v => a ∪ v) s), foldl_union_eq l2 s,
    Finset.union_assoc, Finset.union_assoc]
  exact congrArg (s ∪ ·) (Finset.union_comm _ _)

theorem mergeWorker_swap (acc : List PheromoneImage × Finset Point)
    (a b : List PheromoneImage × List (Finset Point)) :
    mergeWorker (mergeWorker acc a) b = mergeWorker (mergeWorker acc b) a := by
  unfold mergeWorker
  dsimp only
  rw [zipAddChannels_swap, foldl_union_swap]

/-! ## Claim C3 -/

/-- C3: merging a fixed collection of per-worker partial results
(channel deltas by elementwise addition, visited sets by union) into
the authoritative state yields the same final channels and visited set
for every merge order. -/
theorem merge_order_independent {l1 l2 : List (List PheromoneImage × List (Finset Point))}
    (h : l1.Perm l2) :
    ∀ acc : List PheromoneImage × Finset Point,
      l1.foldl mergeWorker acc = l2.foldl mergeWorker acc := by
  induction h with
  | nil => intro acc; rfl
  | cons x _ ih =>
      intro acc
      rw [List.foldl_cons, List.foldl_cons]
      exact ih _
  | swap x y l =>
      intro acc
      rw [List.foldl_cons, List.foldl_cons, List.foldl_cons, List.foldl_cons,
        mergeWorker_swap]
  | trans _ _ ih1 ih2 =>
      intro acc
      rw [ih1, ih2]

/-- Witness for C3: two concrete worker results merged in both orders. -/
theorem merge_order_independent_witness :
    ([sampleWorker 1, sampleWorker 2].Perm [sampleWorker 2, sampleWorker 1]) ∧
      [sampleWorker 1, sampleWorker 2].foldl mergeWorker ([sampleChan 0], ∅) =
        [sampleWorker 2, sampleWorker 1].foldl mergeWorker ([sampleChan 0], ∅) :=
  ⟨List.Perm.swap _ _ _, merge_order_independent (List.Perm.swap _ _ _) _⟩

/-! ## Walk geometry and weight positivity -/

theorem Point.add_mk (a b : Point) : a + b = ⟨a.x + b.x, a.y + b.y⟩ := rfl

theorem euclid_eq_dist (p q : Point) : p.euclidean_distance q = dist (toE p) (toE q) := by
  unfold Point.euclidean_distance Point.euclidean_squared_distance toE
  rw [EuclideanSpace.dist_eq, Fin.sum_univ_two]
  congr 1
  simp only [Matrix.cons_val_zero, Matrix.cons_val_one, Matrix.head_cons, Real.dist_eq,
    sq_abs]
  push_cast
  ring

theorem euclid_triangle (t p q : Point) :
    t.euclidean_distance p ≤ t.euclidean_distance q + q.euclidean_distance p := by
  rw [euclid_eq_dist, euclid_eq_dist, euclid_eq_dist]
  exact dist_triangle _ _ _

theorem euclid_symm (p q : Point) :
    p.euclidean_distance q = q.euclidean_distance p := by
  rw [euclid_eq_dist, euclid_eq_dist]
  exact dist_comm _ _

theorem mem_iterate_neighbourhood {p q : Point} :
    q ∈ p.iterate_neighbourhood ↔ ∃ d ∈ neighbourhood_directions, q = p + d := by
  unfold Point.iterate_neighbourhood
  simp only [List.mem_map]
  constructor
  · rintro ⟨d, hd, rfl⟩
    exact ⟨d, hd, rfl⟩
  · rintro ⟨d, hd, rfl⟩
    exact ⟨d, hd, rfl⟩

theorem neighbour_dist_lt_three {p q : Point} (h : q ∈ p.iterate_neighbourhood) :
    q.euclidean_distance p < 3 := by
  have h3 : (0 : ℝ) < 3 := by norm_num
  rw [Point.euclidean_distance]
  rw [show (3 : ℝ) = Real.sqrt (3 ^ 2) from (Real.sqrt_sq (by norm_num)).symm]
  apply Real.sqrt_lt_sqrt
  · unfold Point.euclidean_squared_distance
    positivity
  · obtain ⟨d, hd, rfl⟩ := mem_iterate_neighbourhood.mp h
    unfold Point.euclidean_squared_distance
    simp only [neighbourhood_directions, List.mem_cons, List.not_mem_nil, or_false] at hd
    rcases hd with rfl | rfl | rfl | rfl | rfl | rfl | rfl | rfl <;>
      · rw [Point.add_mk]
        push_cast
        ring_nf
        norm_num

theorem foldl_strength_pos (q : Point) (l : List PheromoneImage) :
    ∀ acc : ℝ, 0 < acc → 0 < l.foldl (fun acc ph =>
      let strength := ph.atP q
      if 0 < strength then acc + (strength : ℝ) else acc) acc := by
  induction l with
  | nil => intro acc h; exact h
  | cons ph l ih =>
      intro acc h
      rw [List.foldl_cons]
      apply ih
      dsimp only
      split_ifs with hs
      · have : (0 : ℝ) < ((ph.atP q : ℚ) : ℝ) := by exact_mod_cast hs
        linarith
      · exact h

theorem is_within_iff {p a b : Point} : p.is_within_rectangle a b = true ↔
    min a.x b.x ≤ p.x ∧ p.x ≤ max a.x b.x ∧ min a.y b.y ≤ p.y ∧ p.y ≤ max a.y b.y := by
  unfold Point.is_within_rectangle
  simp [Bool.and_eq_true, decide_eq_true_eq, and_assoc]

/-- Part (a) of C6: a candidate outside the image rectangle gets weight
exactly 0. -/
theorem getWeight_eq_zero (img : RgbImg) (pheromones : List PheromoneImage)
    (target position : Point) (visited : Finset Point) {q : Point}
    (h : q.is_within_rectangle ⟨0, 0⟩ ⟨(img.width : ℤ) - 1, (img.height : ℤ) - 1⟩ = false) :
    getWeight img pheromones target position visited q = 0 := by
  unfold getWeight
  rw [h]
  rfl

/-- Part (b) of C6: an in-rectangle neighbour candidate gets a strictly
positive weight (the goal-seeking factor stays positive because one
step moves the distance to the target by less than 3). -/
theorem getWeight_pos (img : RgbImg) (pheromones : List PheromoneImage)
    (target position : Point) (visited : Finset Point) {q : Point}
    (hq : q ∈ position.iterate_neighbourhood)
    (h : q.is_within_rectangle ⟨0, 0⟩ ⟨(img.width : ℤ) - 1, (img.height : ℤ) - 1⟩ = true) :
    0 < getWeight img pheromones target position visited q := by
  unfold getWeight
  rw [h]
  simp only [if_true]
  have hbase := foldl_strength_pos q pheromones (0.1 : ℝ) (by norm_num)
  have htri := euclid_triangle target q position
  have hstep : position.euclidean_distance q < 3 := by
    rw [euclid_symm]
    exact neighbour_dist_lt_three hq
  have hfac : 0 < target.euclidean_distance position - target.euclidean_distance q + 3 := by
    linarith
  have hden : (0 : ℝ) < 128 + (manhattanColor (img.pix position) (img.pix q) : ℝ) := by
    positivity
  have hw2 : 0 < (pheromones.foldl (fun acc ph =>
      let strength := ph.atP q
      if 0 < strength then acc + (strength : ℝ) else acc) (0.1 : ℝ)) *
        ((target.euclidean_distance position - target.euclidean_distance q) + 3) /
        (128 + (manhattanColor (img.pix position) (img.pix q) : ℝ)) := by
    apply div_pos
    · exact mul_pos hbase hfac
    · exact hden
  split_ifs with hv
  · linarith
  · exact hw2

/-- Within-rectangle over the image corners, in arithmetic form. -/
theorem is_within_corner_iff {p : Point} {w h : ℕ} (hw : 1 ≤ w) (hh : 1 ≤ h) :
    p.is_within_rectangle ⟨0, 0⟩ ⟨(w : ℤ) - 1, (h : ℤ) - 1⟩ = true ↔
      (0 ≤ p.x ∧ p.x < w ∧ 0 ≤ p.y ∧ p.y < h) := by
  unfold Point.is_within_rectangle
  simp only [Bool.and_eq_true, decide_eq_true_eq]
  omega

/-- An in-bounds position of an image with at least two pixels has an
in-rectangle 8-neighbour. -/
theorem exists_inRect_neighbour {img : RgbImg} {p : Point}
    (hp : p.is_within_rectangle ⟨0, 0⟩ ⟨(img.width : ℤ) - 1, (img.height : ℤ) - 1⟩ = true)
    (hw : 1 ≤ img.width) (hh : 1 ≤ img.height) (h2 : 2 ≤ img.width * img.height) :
    ∃ q ∈ p.iterate_neighbourhood,
      q.is_within_rectangle ⟨0, 0⟩ ⟨(img.width : ℤ) - 1, (img.height : ℤ) - 1⟩ = true := by
  rw [is_within_corner_iff hw hh] at hp
  have hcases : 2 ≤ img.width ∨ 2 ≤ img.height := by
    by_contra hc
    push_neg at hc
    have hle : img.width * img.height ≤ 1 * 1 := Nat.mul_le_mul (by omega) (by omega)
    omega
  rcases hcases with hbig | hbig
  · by_cases hx : p.x < (img.width : ℤ) - 1
    · refine ⟨p + ⟨1, 0⟩, ?_, ?_⟩
      · exact mem_iterate_neighbourhood.mpr ⟨⟨1, 0⟩, by simp [neighbourhood_directions], rfl⟩
      · rw [Point.add_mk, is_within_corner_iff hw hh]
        dsimp only
        omega
    · refine ⟨p + ⟨-1, 0⟩, ?_, ?_⟩
      · exact mem_iterate_neighbourhood.mpr ⟨⟨-1, 0⟩, by simp [neighbourhood_directions], rfl⟩
      · rw [Point.add_mk, is_within_corner_iff hw hh]
        dsimp only
        omega
  · by_cases hy : p.y < (img.height : ℤ) - 1
    · refine ⟨p + ⟨0, 1⟩, ?_, ?_⟩
      · exact mem_iterate_neighbourhood.mpr ⟨⟨0, 1⟩, by simp [neighbourhood_directions], rfl⟩
      · rw [Point.add_mk, is_within_corner_iff hw hh]
        dsimp only
        omega
    · refine ⟨p + ⟨0, -1⟩, ?_, ?_⟩
      · exact mem_iterate_neighbourhood.mpr ⟨⟨0, -1⟩, by simp [neighbourhood_directions], rfl⟩
      · rw [Point.add_mk, is_within_corner_iff hw hh]
        dsimp only
        omega

theorem unit_bounds (r : Rng) : 0 ≤ r.unit.1 ∧ r.unit.1 < 1 := by
  unfold Rng.unit
  constructor
  · positivity
  · rw [div_lt_one (by positivity)]
    have h := Nat.mod_lt r.next.1 (show 0 < 2 ^ 32 by norm_num)
    exact_mod_cast h

theorem weights_sum_pos {items : List Point} {weight : Point → ℝ}
    (hnn : ∀ q ∈ items, 0 ≤ weight q) {q0 : Point} (hq0 : q0 ∈ items)
    (hpos : 0 < weight q0) : 0 < (items.map weight).sum := by
  induction items with
  | nil => exact absurd hq0 (List.not_mem_nil q0)
  | cons a rest ih =>
      rw [List.map_cons, List.sum_cons]
      have hrest : 0 ≤ (rest.map weight).sum := by
        apply List.sum_nonneg
        intro x hx
        obtain ⟨q, hq, rfl⟩ := List.mem_map.mp hx
        exact hnn q (List.mem_cons_of_mem a hq)
      rcases List.mem_cons.mp hq0 with rfl | hmem
      · linarith
      · have := ih (fun q hq => hnn q (List.mem_cons_of_mem a hq)) hmem
        have ha := hnn a (List.mem_cons_self a rest)
        linarith

theorem pickWeighted_spec (weight : Point → ℝ) :
    ∀ (items : List Point) (u : ℝ), (∀ q ∈ items, 0 ≤ weight q) → 0 ≤ u →
      u < (items.map weight).sum →
      pickWeighted weight items u ∈ items ∧ 0 < weight (pickWeighted weight items u) := by
  intro items
  induction items with
  | nil =>
      intro u _ hu hlt
      rw [List.map_nil, List.sum_nil] at hlt
      linarith
  | cons p rest ih =>
      intro u hnn hu hlt
      rw [List.map_cons, List.sum_cons] at hlt
      simp only [pickWeighted]
      split_ifs with h
      · exact ⟨List.mem_cons_self p rest, lt_of_le_of_lt hu h⟩
      · push_neg at h
        have := ih (u - weight p) (fun q hq => hnn q (List.mem_cons_of_mem p hq))
          (by linarith) (by linarith)
        exact ⟨List.mem_cons_of_mem p this.1, this.2⟩

theorem chooseWeighted_none {items : List Point} {weight : Point → ℝ} (rng : Rng)
    (h : (items.map weight).sum ≤ 0) : chooseWeighted items weight rng = none := by
  unfold chooseWeighted
  exact if_pos h

theorem chooseWeighted_some {items : List Point} {weight : Point → ℝ} (rng : Rng)
    (hnn : ∀ q ∈ items, 0 ≤ weight q) {q0 : Point} (hq0 : q0 ∈ items)
    (hpos : 0 < weight q0) :
    chooseWeighted items weight rng =
        some (pickWeighted weight items
          (((rng.unit.1 : ℚ) : ℝ) * (items.map weight).sum), rng.unit.2) ∧
      pickWeighted weight items (((rng.unit.1 : ℚ) : ℝ) * (items.map weight).sum) ∈ items ∧
      0 < weight (pickWeighted weight items
        (((rng.unit.1 : ℚ) : ℝ) * (items.map weight).sum)) := by
  have htot := weights_sum_pos hnn hq0 hpos
  obtain ⟨hu0, hu1⟩ := unit_bounds rng
  have hu0' : (0 : ℝ) ≤ ((rng.unit.1 : ℚ) : ℝ) := by exact_mod_cast hu0
  have hu1' : ((rng.unit.1 : ℚ) : ℝ) < 1 := by exact_mod_cast hu1
  have hle : 0 ≤ ((rng.unit.1 : ℚ) : ℝ) * (items.map weight).sum :=
    mul_nonneg hu0' (le_of_lt htot)
  have hlt : ((rng.unit.1 : ℚ) : ℝ) * (items.map weight).sum < (items.map weight).sum :=
    mul_lt_of_lt_one_left htot hu1'
  have hpick := pickWeighted_spec weight items _ hnn hle hlt
  refine ⟨?_, hpick.1, hpick.2⟩
  unfold chooseWeighted
  exact if_neg (not_le.mpr htot)

/-! ## The walk stays in bounds and cannot fail on live images -/

theorem getWeight_nonneg_on_neighbours (img : RgbImg) (pheromones : List PheromoneImage)
    (target position : Point) (visited : Finset Point) :
    ∀ q ∈ position.iterate_neighbourhood,
      0 ≤ getWeight img pheromones target position visited q := by
  intro q hq
  by_cases h : inRect img q
  · exact le_of_lt (getWeight_pos img pheromones target position visited hq h)
  · rw [getWeight_eq_zero img pheromones target position visited
      (Bool.not_eq_true _ ▸ eq_false_of_ne_true h)]

theorem inRect_unique_of_one {img : RgbImg} (hw : img.width = 1) (hh : img.height = 1)
    {p : Point} (hp : inRect img p) : p = ⟨0, 0⟩ := by
  unfold inRect at hp
  rw [is_within_corner_iff (by omega) (by omega)] at hp
  rw [hw] at hp
  rw [hh] at hp
  ext <;> simp <;> omega

/-- The main walk invariant: spawned in bounds (and targeting in
bounds), the walk always succeeds and every recorded point is inside
the image rectangle.  The side condition rules out the one degenerate
case (a 1×1 image with the return phase enabled) in which the source
panics. -/
theorem antRunGo_spec (img : RgbImg) (rules : AntColonyRules)
    (pheromones : List PheromoneImage) (hw : 1 ≤ img.width) (hh : 1 ≤ img.height) :
    ∀ (fuel : ℕ) (start : Option Point) (ant : Ant) (rng : Rng),
      inRect img ant.position → inRect img ant.target →
      (∀ s, start = some s → inRect img s) →
      (∀ v ∈ ant.visited, inRect img v) →
      (2 ≤ img.width * img.height ∨ rules.ants_return = false) →
      ∃ ant' rng', antRunGo img rules pheromones fuel start ant rng = some (ant', rng') ∧
        inRect img ant'.position ∧ (∀ v ∈ ant'.visited, inRect img v) := by
  intro fuel
  induction fuel with
  | zero =>
      intro start ant rng hpos htgt hstart hvis hcase
      refine ⟨{ ant with visited := insert ant.position ant.visited }, rng, rfl, hpos, ?_⟩
      intro v hv
      rcases Finset.mem_insert.mp hv with rfl | hv'
      · exact hpos
      · exact hvis v hv'
  | succ fuel ih =>
      intro start ant rng hpos htgt hstart hvis hcase
      by_cases hbreak : ant.position = ant.target ∧
          ¬(rules.ants_return = true ∧ start.isSome = true)
      · refine ⟨{ ant with visited := insert ant.position ant.visited }, rng, ?_, hpos, ?_⟩
        · simp only [antRunGo]
          rw [if_pos hbreak]
        · intro v hv
          rcases Finset.mem_insert.mp hv with rfl | hv'
          · exact hpos
          · exact hvis v hv'
      · have h2 : 2 ≤ img.width * img.height := by
          rcases hcase with h2 | hret
          · exact h2
          · by_contra hlt
            push_neg at hlt
            have hwle : img.width ≤ 1 := by
              by_contra hx
              push_neg at hx
              have : 2 * 1 ≤ img.width * img.height := Nat.mul_le_mul hx hh
              omega
            have hhle : img.height ≤ 1 := by
              by_contra hx
              push_neg at hx
              have : 1 * 2 ≤ img.width * img.height := Nat.mul_le_mul hw hx
              omega
            have hp0 := inRect_unique_of_one (by omega) (by omega) hpos
            have ht0 := inRect_unique_of_one (by omega) (by omega) htgt
            exact hbreak ⟨hp0.trans ht0.symm, by simp [hret]⟩
        set target' := if ant.position = ant.target then start.getD ant.target
          else ant.target with htgt'
        set start' := if ant.position = ant.target then none else start with hstart'
        set visited' := insert ant.position ant.visited with hvis'
        have htgt'R : inRect img target' := by
          rw [htgt']
          split_ifs with he
          · cases start with
            | none => exact absurd ⟨he, by simp⟩ hbreak
            | some s => exact hstart s rfl
          · exact htgt
        have hvis'R : ∀ v ∈ visited', inRect img v := by
          intro v hv
          rcases Finset.mem_insert.mp hv with rfl | hv'
          · exact hpos
          · exact hvis v hv'
        obtain ⟨q0, hq0mem, hq0in⟩ := exists_inRect_neighbour hpos hw hh h2
        have hnn := getWeight_nonneg_on_neighbours img pheromones target' ant.position visited'
        have hq0pos := getWeight_pos img pheromones target' ant.position visited' hq0mem hq0in
        obtain ⟨hchoose, hmem, hcpos⟩ :=
          chooseWeighted_some rng hnn hq0mem hq0pos
        set next := pickWeighted
          (getWeight img pheromones target' ant.position visited')
          ant.position.iterate_neighbourhood
          (((rng.unit.1 : ℚ) : ℝ) *
            (ant.position.iterate_neighbourhood.map
              (getWeight img pheromones target' ant.position visited')).sum) with hnext
        have hnextR : inRect img next := by
          by_contra hout
          rw [getWeight_eq_zero img pheromones target' ant.position visited'
            (Bool.not_eq_true _ ▸ eq_false_of_ne_true hout)] at hcpos
          exact lt_irrefl 0 hcpos
        have hstep := ih start' ⟨next, target', visited'⟩ rng.unit.2 hnextR htgt'R
          (by
            intro s hs
            rw [hstart'] at hs
            split_ifs at hs with he
            all_goals first
              | exact Option.noConfusion hs
              | exact hstart s hs)
          hvis'R hcase
        obtain ⟨ant', rng', hrun, hposR, hvisR⟩ := hstep
        refine ⟨ant', rng', ?_, hposR, hvisR⟩
        simp only [antRunGo]
        rw [if_neg hbreak, ← htgt', ← hstart', ← hvis', hchoose]
        exact hrun

/-! ## Claim C6 -/

/-- C6: on an image with at least two pixels, at every step of
`Ant::run` a candidate outside the image rectangle gets weight 0, every
in-rectangle neighbour candidate gets positive weight, and therefore
the walk always succeeds, the position stays inside the rectangle, and
every point of the visited set lies within the image rectangle. -/
theorem walk_never_leaves_rectangle (img : RgbImg) (rules : AntColonyRules)
    (pheromones : List PheromoneImage) (target position : Point) (visited : Finset Point)
    (fuel : ℕ) (start : Option Point) (ant : Ant) (rng : Rng)
    (hw : 1 ≤ img.width) (hh : 1 ≤ img.height) (h2 : 2 ≤ img.width * img.height)
    (hpos : inRect img ant.position) (htgt : inRect img ant.target)
    (hstart : ∀ s, start = some s → inRect img s)
    (hvis : ∀ v ∈ ant.visited, inRect img v) :
    (∀ q ∈ position.iterate_neighbourhood, ¬ inRect img q →
        getWeight img pheromones target position visited q = 0) ∧
      (∀ q ∈ position.iterate_neighbourhood, inRect img q →
        0 < getWeight img pheromones target position visited q) ∧
      ∃ ant' rng', antRunGo img rules pheromones fuel start ant rng = some (ant', rng') ∧
        inRect img ant'.position ∧ ∀ v ∈ ant'.visited, inRect img v := by
  refine ⟨?_, ?_, antRunGo_spec img rules pheromones hw hh fuel start ant rng hpos htgt
    hstart hvis (Or.inl h2)⟩
  · intro q _ hout
    exact getWeight_eq_zero img pheromones target position visited
      (Bool.not_eq_true _ ▸ eq_false_of_ne_true hout)
  · intro q hq hin
    exact getWeight_pos img pheromones target position visited hq hin

/-- Witness for C6 on a concrete 2×1 image. -/
theorem walk_never_leaves_rectangle_witness :
    (1 ≤ (⟨2, 1, fun _ => black⟩ : RgbImg).width ∧
      2 ≤ (⟨2, 1, fun _ => black⟩ : RgbImg).width * (⟨2, 1, fun _ => black⟩ : RgbImg).height ∧
      inRect ⟨2, 1, fun _ => black⟩ (⟨⟨0, 0⟩, ⟨1, 0⟩, ∅⟩ : Ant).position) ∧
      ∃ ant' rng', antRunGo ⟨2, 1, fun _ => black⟩ ⟨1, 1, false, 1, [], [], none⟩ [] 1
          (some ⟨0, 0⟩) ⟨⟨0, 0⟩, ⟨1, 0⟩, ∅⟩ ⟨fun _ => 0, 0⟩ = some (ant', rng') ∧
        inRect ⟨2, 1, fun _ => black⟩ ant'.position ∧
        ∀ v ∈ ant'.visited, inRect ⟨2, 1, fun _ => black⟩ v :=
  ⟨⟨by decide, by decide, by decide⟩,
    (walk_never_leaves_rectangle ⟨2, 1, fun _ => black⟩ ⟨1, 1, false, 1, [], [], none⟩ []
      ⟨1, 0⟩ ⟨0, 0⟩ ∅ 1 (some ⟨0, 0⟩) ⟨⟨0, 0⟩, ⟨1, 0⟩, ∅⟩ ⟨fun _ => 0, 0⟩ (by decide)
      (by decide) (by decide) (by decide) (by decide)
      (fun s hs => Option.some.inj hs ▸ (by decide))
      (by decide)).2.2⟩

/-! ## Claim C5 -/

/-- Shared core: whenever the weighted choice is reached with all 8
candidate weights zero, `choose_weighted` fails and the `unwrap`
panics (modelled as `none`). -/
theorem antRunGo_zero_weight_aux (img : RgbImg) (rules : AntColonyRules)
    (pheromones : List PheromoneImage) (fuel : ℕ) (start : Option Point) (ant : Ant)
    (rng : Rng)
    (hguard : ant.position = ant.target → rules.ants_return = true ∧ start.isSome = true)
    (hzero : ∀ q ∈ ant.position.iterate_neighbourhood,
      getWeight img pheromones
        (if ant.position = ant.target then start.getD ant.target else ant.target)
        ant.position (insert ant.position ant.visited) q = 0) :
    antRunGo img rules pheromones (fuel + 1) start ant rng = none := by
  have hbreak : ¬(ant.position = ant.target ∧
      ¬(rules.ants_return = true ∧ start.isSome = true)) := by
    rintro ⟨hA, hB⟩
    exact hB (hguard hA)
  simp only [antRunGo]
  rw [if_neg hbreak]
  have hsum : ((ant.position.iterate_neighbourhood).map
      (getWeight img pheromones
        (if ant.position = ant.target then start.getD ant.target else ant.target)
        ant.position (insert ant.position ant.visited))).sum = 0 := by
    apply List.sum_eq_zero
    intro x hx
    obtain ⟨q, hq, rfl⟩ := List.mem_map.mp hx
    exact hzero q hq
  rw [chooseWeighted_none rng (le_of_eq hsum)]

/-- C5 counterexample: on a 1×1 image with the return phase enabled, an
ant spawned at its own target reaches the weighted choice with all 8
neighbour weights zero, and `Ant::run` fails (the `unwrap` on
`choose_weighted` panics) instead of terminating: the walk is not
guarded. -/
theorem walk_all_zero_weights_cex :
    antRunGo img1 rulesReturn1 [] 1 (some ⟨0, 0⟩) ⟨⟨0, 0⟩, ⟨0, 0⟩, ∅⟩ rng0 = none := by
  apply antRunGo_zero_weight_aux img1 rulesReturn1 [] 0 (some ⟨0, 0⟩)
    ⟨⟨0, 0⟩, ⟨0, 0⟩, ∅⟩ rng0
  · intro _
    exact ⟨rfl, rfl⟩
  · intro q hq
    apply getWeight_eq_zero
    fin_cases hq <;> decide

/-- C5 (amended): if at some step of `Ant::run` the weighted choice is
reached with all 8 neighbour candidates at zero weight, the walk is not
guarded: `choose_weighted` returns an error and the `unwrap` panics
(modelled as `none`), rather than terminating. -/
theorem walk_zero_weight_not_guarded (img : RgbImg) (rules : AntColonyRules)
    (pheromones : List PheromoneImage) (fuel : ℕ) (start : Option Point) (ant : Ant)
    (rng : Rng)
    (hguard : ant.position = ant.target → rules.ants_return = true ∧ start.isSome = true)
    (hzero : ∀ q ∈ ant.position.iterate_neighbourhood,
      getWeight img pheromones
        (if ant.position = ant.target then start.getD ant.target else ant.target)
        ant.position (insert ant.position ant.visited) q = 0) :
    antRunGo img rules pheromones (fuel + 1) start ant rng = none :=
  antRunGo_zero_weight_aux img rules pheromones fuel start ant rng hguard hzero

/-- Witness for the amended C5 at the concrete degenerate input. -/
theorem walk_zero_weight_not_guarded_witness :
    rulesReturn1.ants_return = true ∧
      antRunGo img1 rulesReturn1 [] 1 (some ⟨1, 1⟩) ⟨⟨0, 0⟩, ⟨1, 1⟩, ∅⟩ rng0 = none :=
  ⟨rfl, walk_zero_weight_not_guarded img1 rulesReturn1 [] 0 (some ⟨1, 1⟩)
    ⟨⟨0, 0⟩, ⟨1, 1⟩, ∅⟩ rng0 (fun h => absurd h (by decide))
    (by intro q hq; apply getWeight_eq_zero; fin_cases hq <;> decide)⟩

/-! ## Claim C2 -/

theorem spawn_inRect (img : RgbImg) (hw : 1 ≤ img.width) (hh : 1 ≤ img.height) (rng : Rng) :
    inRect img (Ant.spawn rng img.width img.height).1.position ∧
      inRect img (Ant.spawn rng img.width img.height).1.target := by
  unfold Ant.spawn Point.spawn Rng.natBelow inRect
  dsimp only
  constructor <;>
    · rw [is_within_corner_iff hw hh]
      dsimp only
      refine ⟨by positivity, ?_, by positivity, ?_⟩ <;>
        exact_mod_cast Nat.mod_lt _ (by omega)

theorem applyGo_noop (img : RgbImg) (visited : Finset Point) :
    ∀ (phers : List PheromoneImage) (funcs : List (Option UpdateFn)) (rng : Rng),
      (∀ f ∈ funcs, f = none) → applyGo img visited phers funcs rng = (rng, phers) := by
  intro phers
  induction phers with
  | nil =>
      intro funcs rng _
      cases funcs <;> rfl
  | cons p ps ih =>
      intro funcs rng h
      cases funcs with
      | nil => rfl
      | cons f fs =>
          have hf : f = none := h f (List.mem_cons_self f fs)
          subst hf
          simp only [applyGo]
          rw [ih fs rng (fun g hg => h g (List.mem_cons_of_mem none hg))]

theorem applyFuncs_noop (rng : Rng) (img : RgbImg) (phers : List PheromoneImage)
    (visited : Finset Point) (funcs : List (Option UpdateFn))
    (h : ∀ f ∈ funcs, f = none) (hlen : phers.length ≤ funcs.length) :
    applyFuncs rng img phers visited funcs = some (rng, phers) := by
  unfold applyFuncs
  rw [if_pos hlen, applyGo_noop img visited phers funcs rng h]

theorem create_and_run_ants_noop (img : RgbImg) (rules : AntColonyRules)
    (hw : 1 ≤ img.width) (hh : 1 ≤ img.height)
    (hcase : 2 ≤ img.width * img.height ∨ rules.ants_return = false)
    (hln : ∀ f ∈ rules.local_update_funcs, f = none) :
    ∀ (n : ℕ) (rng : Rng) (phers : List PheromoneImage),
      phers.length ≤ rules.local_update_funcs.length →
      ∃ rng' vs, create_and_run_ants img rules n rng phers = some (rng', phers, vs) := by
  intro n
  induction n with
  | zero =>
      intro rng phers _
      exact ⟨rng, [], rfl⟩
  | succ n ih =>
      intro rng phers hlen
      obtain ⟨hposR, htgtR⟩ := spawn_inRect img hw hh rng
      obtain ⟨ant', rng2, hrun, _, _⟩ := antRunGo_spec img rules phers hw hh
        rules.max_ant_steps (some (Ant.spawn rng img.width img.height).1.position)
        (Ant.spawn rng img.width img.height).1 (Ant.spawn rng img.width img.height).2
        hposR htgtR (fun s hs => Option.some.inj hs ▸ hposR)
        (fun v hv => absurd hv (Finset.not_mem_empty v)) hcase
      obtain ⟨rng', vs, hrec⟩ := ih rng2 phers hlen
      simp only [create_and_run_ants, Ant.run]
      rw [hrun]
      dsimp only
      rw [applyFuncs_noop rng2 img phers ant'.visited rules.local_update_funcs hln hlen]
      dsimp only
      rw [hrec]
      exact ⟨rng', ant'.visited :: vs, rfl⟩

theorem runWorkers_noop (img : RgbImg) (rules : AntColonyRules)
    (phers : List PheromoneImage)
    (hw : 1 ≤ img.width) (hh : 1 ≤ img.height)
    (hcase : 2 ≤ img.width * img.height ∨ rules.ants_return = false)
    (hln : ∀ f ∈ rules.local_update_funcs, f = none)
    (hlen : phers.length ≤ rules.local_update_funcs.length) :
    ∀ (r ants_left : ℕ) (rng : Rng),
      ∃ rng' parts, runWorkers img rules phers r ants_left rng = some (rng', parts) ∧
        parts.length = r ∧ ∀ part ∈ parts, part.1 = phers := by
  intro r
  induction r with
  | zero =>
      intro ants_left rng
      exact ⟨rng, [], rfl, rfl, fun part hp => absurd hp (List.not_mem_nil part)⟩
  | succ r ih =>
      intro ants_left rng
      obtain ⟨rngW, vs, hca⟩ := create_and_run_ants_noop img rules hw hh hcase hln
        (if 0 < r then min ants_left (rules.ants_per_global_update / rules.parallelity)
          else ants_left) rng.fromRng.1 phers hlen
      obtain ⟨rng', parts, hrw, hplen, hpfst⟩ := ih
        (ants_left - (if 0 < r then
          min ants_left (rules.ants_per_global_update / rules.parallelity)
          else ants_left)) rng.fromRng.2
      refine ⟨rng', (phers, vs) :: parts, ?_, by simp [hplen], ?_⟩
      · simp only [runWorkers]
        rw [hca, hrw]
      · intro part hp
        rcases List.mem_cons.mp hp with rfl | hp'
        · rfl
        · exact hpfst part hp'

theorem zipAddChannels_length_eq (a b : List PheromoneImage) (h : b.length ≤ a.length) :
    (zipAddChannels a b).length = a.length := by
  unfold zipAddChannels
  rw [List.length_append, List.length_zipWith, List.length_drop]
  omega

theorem zipAddChannels_getD (a : List PheromoneImage) :
    ∀ (b : List PheromoneImage), a.length = b.length →
      ∀ i, i < a.length →
        (zipAddChannels a b).getD i default = (a.getD i default).add (b.getD i default) := by
  induction a with
  | nil =>
      intro b _ i hi
      simp at hi
  | cons x xs ih =>
      intro b h i hi
      cases b with
      | nil => simp at h
      | cons y ys =>
          rw [zipAddChannels_cons]
          cases i with
          | zero => rfl
          | succ j =>
              simp only [List.getD_cons_succ]
              exact ih ys (by simpa using h) j (by simpa using hi)

theorem fold_merge_channels (phers : List PheromoneImage) :
    ∀ (parts : List (List PheromoneImage × List (Finset Point)))
      (accCh : List PheromoneImage) (accV : Finset Point),
      (∀ part ∈ parts, part.1 = phers) → accCh.length = phers.length →
      (parts.foldl mergeWorker (accCh, accV)).1.length = phers.length ∧
        ∀ i, i < phers.length → ∀ x y : ℕ,
          ((parts.foldl mergeWorker (accCh, accV)).1.getD i default).pix x y =
            (accCh.getD i default).pix x y +
              (parts.length : ℚ) * ((phers.getD i default).pix x y) := by
  intro parts
  induction parts with
  | nil =>
      intro accCh accV _ hlen
      refine ⟨hlen, ?_⟩
      intro i hi x y
      simp
  | cons part rest ih =>
      intro accCh accV hall hlen
      have hp1 : part.1 = phers := hall part (List.mem_cons_self part rest)
      have hstep : mergeWorker (accCh, accV) part =
          (zipAddChannels accCh phers, part.2.foldl (fun a v => a ∪ v) accV) := by
        unfold mergeWorker
        rw [hp1]
      have hlen' : (zipAddChannels accCh phers).length = phers.length := by
        rw [zipAddChannels_length_eq accCh phers (by omega)]
        exact hlen
      rw [List.foldl_cons, hstep]
      obtain ⟨hl, hp⟩ := ih (zipAddChannels accCh phers)
        (part.2.foldl (fun a v => a ∪ v) accV)
        (fun q hq => hall q (List.mem_cons_of_mem part hq)) hlen'
      refine ⟨hl, ?_⟩
      intro i hi x y
      rw [hp i hi x y, zipAddChannels_getD accCh phers (by omega) i (by omega)]
      simp only [PheromoneImage.add, List.length_cons]
      push_cast
      ring

/-- Shared core for C2: with no-op local and global update policies,
one colony step leaves every worker's local channels equal to the
snapshot, and the merge adds each of the `parallelity` copies onto the
authoritative channels — the result is `(1 + parallelity)` times the
initial channels. -/
theorem run_colony_step_noop_aux (img : RgbImg) (rules : AntColonyRules)
    (phers : List PheromoneImage) (rng : Rng)
    (hw : 1 ≤ img.width) (hh : 1 ≤ img.height)
    (hcase : 2 ≤ img.width * img.height ∨ rules.ants_return = false)
    (hln : ∀ f ∈ rules.local_update_funcs, f = none)
    (hlen : phers.length ≤ rules.local_update_funcs.length)
    (hg : rules.global_update_func = none) :
    ∃ (rngf : Rng) (chans : List PheromoneImage) (vis : Finset Point),
      run_colony_step rng img rules phers = some (rngf, chans, vis) ∧
        chans.length = phers.length ∧
        ∀ i, i < phers.length → ∀ x y : ℕ,
          (chans.getD i default).pix x y =
            (1 + (rules.parallelity : ℚ)) * ((phers.getD i default).pix x y) := by
  obtain ⟨rng', parts, hrw, hplen, hpfst⟩ := runWorkers_noop img rules phers hw hh hcase
    hln hlen rules.parallelity rules.ants_per_global_update rng
  obtain ⟨hclen, hcpix⟩ := fold_merge_channels phers parts phers ∅ hpfst rfl
  have hglob : rules.globalUpdate rng' img (parts.foldl mergeWorker (phers, ∅)).1
      (parts.foldl mergeWorker (phers, ∅)).2 =
        (rng', (parts.foldl mergeWorker (phers, ∅)).1) := by
    unfold AntColonyRules.globalUpdate
    rw [hg]
  refine ⟨rng', (parts.foldl mergeWorker (phers, ∅)).1,
    (parts.foldl mergeWorker (phers, ∅)).2, ?_, hclen, ?_⟩
  · unfold run_colony_step
    rw [hrw]
    simp only [hglob]
  · intro i hi x y
    rw [hcpix i hi x y, hplen]
    ring

/-- C2 counterexample: on a 1×1 image with all-no-op policies and a
constant-1 initial channel, one colony step with `parallelity = 2`
yields channel value 3, while `parallelity = 1` yields 2 — the merged
pheromone channels differ between the two parallelities even from the
same seed. -/
theorem run_colony_step_parallelity_cex :
    (run_colony_step rng0 img1 ⟨1, 2, false, 2, [none], [none], none⟩
        [sampleChan 1]).map (fun r => (r.2.1.getD 0 default).pix 0 0) = some 3 ∧
      (run_colony_step rng0 img1 ⟨1, 2, false, 1, [none], [none], none⟩
        [sampleChan 1]).map (fun r => (r.2.1.getD 0 default).pix 0 0) = some 2 ∧
      (3 : ℚ) ≠ 2 := by
  refine ⟨?_, ?_, by norm_num⟩
  · obtain ⟨rngf, chans, vis, he, _, hp⟩ := run_colony_step_noop_aux img1
      ⟨1, 2, false, 2, [none], [none], none⟩ [sampleChan 1] rng0 (by decide) (by decide)
      (Or.inr rfl) (by simp) (by simp) rfl
    rw [he, Option.map_some']
    have := hp 0 (by simp) 0 0
    simp only [List.getD_cons_zero] at this ⊢
    rw [this]
    norm_num [sampleChan]
  · obtain ⟨rngf, chans, vis, he, _, hp⟩ := run_colony_step_noop_aux img1
      ⟨1, 2, false, 1, [none], [none], none⟩ [sampleChan 1] rng0 (by decide) (by decide)
      (Or.inr rfl) (by simp) (by simp) rfl
    rw [he, Option.map_some']
    have := hp 0 (by simp) 0 0
    simp only [List.getD_cons_zero] at this ⊢
    rw [this]
    norm_num [sampleChan]

/-- C2 (amended): `run_colony_step` adds each of the `parallelity`
workers' final local channel sets onto the authoritative channels, so
even with no-op update policies the merged channels equal
`(1 + parallelity)` times the initial channels: the final merged
channels are not identical across different parallelities (only the
order of merging a fixed set of worker results is immaterial). -/
theorem run_colony_step_scales_with_parallelity (img : RgbImg) (rules : AntColonyRules)
    (phers : List PheromoneImage) (rng : Rng)
    (hw : 1 ≤ img.width) (hh : 1 ≤ img.height)
    (hcase : 2 ≤ img.width * img.height ∨ rules.ants_return = false)
    (hln : ∀ f ∈ rules.local_update_funcs, f = none)
    (hlen : phers.length ≤ rules.local_update_funcs.length)
    (hg : rules.global_update_func = none) :
    ∃ (rngf : Rng) (chans : List PheromoneImage) (vis : Finset Point),
      run_colony_step rng img rules phers = some (rngf, chans, vis) ∧
        chans.length = phers.length ∧
        ∀ i, i < phers.length → ∀ x y : ℕ,
          (chans.getD i default).pix x y =
            (1 + (rules.parallelity : ℚ)) * ((phers.getD i default).pix x y) :=
  run_colony_step_noop_aux img rules phers rng hw hh hcase hln hlen hg

/-- Witness for the amended C2 at a concrete input. -/
theorem run_colony_step_scales_with_parallelity_witness :
    (∀ f ∈ (⟨1, 2, false, 2, [none], [none], none⟩ : AntColonyRules).local_update_funcs,
        f = none) ∧
      ∃ (rngf : Rng) (chans : List PheromoneImage) (vis : Finset Point),
        run_colony_step rng0 img1 ⟨1, 2, false, 2, [none], [none], none⟩ [sampleChan 1] =
            some (rngf, chans, vis) ∧
          chans.length = [sampleChan 1].length ∧
          ∀ i, i < [sampleChan 1].length → ∀ x y : ℕ,
            (chans.getD i default).pix x y =
              (1 + ((⟨1, 2, false, 2, [none], [none], none⟩ : AntColonyRules).parallelity : ℚ)) *
                (([sampleChan 1].getD i default).pix x y) :=
  ⟨by simp, run_colony_step_scales_with_parallelity img1
    ⟨1, 2, false, 2, [none], [none], none⟩ [sampleChan 1] rng0 (by decide) (by decide)
    (Or.inr rfl) (by simp) (by simp) rfl⟩

end AntSeg
